import Mathlib

/-!
Verification model of the workshop.ai agent runtime.

The development shallowly embeds the parts of the code base that the
verified properties talk about:

* `src/util/sandboxPath.ts` (shipped as `dist/util/health.js`):
  `assertRelativeSafe`, `ensureWithin`, `resolveSandboxPath`,
  `ensureWorkspaceRoot`;
* `src/tools/fs.ts`: `fsWrite`, `applySimplePatch`, `parseSimplePatch`;
* `src/agent/loop.js`: `runTurn`, `reset`, tool-call execution,
  `mergeToolCallDeltas`, `resolveToolCallIndex`;
* `src/util/logger.ts`: the session logger, modelled as an injected
  append operation that may fail.

Paths are modelled as lists of components of an absolute POSIX path
(the code runs `path.resolve` against the canonical workspace root, so
every path the checks see is absolute and lexically normalized).  The
filesystem is a finite association list from such component lists to
nodes (file, directory or symbolic link); the root directory `[]`
always exists.  `realpath`, `mkdir -p`, `writeFile`, `unlink` and
`access` are modelled on this map with explicit symlink following,
bounded by fuel (the kernel bounds symlink expansions; any cycle ends
in an `ELOOP`-style error, which the resolver treats like every other
non-`ENOENT` error).
-/

/-! ### JavaScript string helpers

The code manipulates paths as strings.  We model the handful of string
operations it uses directly on the character lists of Lean strings so
that the proofs can reason about them.
-/

/-- Split on the character `/`, like `String.prototype.split("/")` and
the component walk done by Node's `path` module on POSIX. -/
def splitSlashAux : List Char → List Char → List String
  | [], acc => [String.mk acc.reverse]
  | '/' :: rest, acc => String.mk acc.reverse :: splitSlashAux rest []
  | c :: rest, acc => splitSlashAux rest (c :: acc)

def splitPath (s : String) : List String :=
  splitSlashAux s.data []

/-- Split on `/\r?\n/` like `parseSimplePatch` does: a `\r` is consumed
only when immediately followed by `\n`. -/
def splitLinesAux : List Char → List Char → List String
  | [], acc => [String.mk acc.reverse]
  | '\r' :: '\n' :: rest, acc => String.mk acc.reverse :: splitLinesAux rest []
  | '\n' :: rest, acc => String.mk acc.reverse :: splitLinesAux rest []
  | c :: rest, acc => splitLinesAux rest (c :: acc)

def splitLines (s : String) : List String :=
  splitLinesAux s.data []

/-- `String.prototype.startsWith`: prefix test on the characters. -/
def strStartsWith (s p : String) : Bool :=
  p.data.isPrefixOf s.data

/-- `String.prototype.includes(":")` specialised to one character. -/
def strContainsChar (s : String) (c : Char) : Bool :=
  s.data.contains c

/-- The whitespace stripped by `String.prototype.trim` (the inputs of
interest only ever carry these four whitespace characters). -/
def isSpaceChar (c : Char) : Bool :=
  c = ' ' || c = '\t' || c = '\n' || c = '\r'

def jsTrim (s : String) : String :=
  String.mk (((s.data.dropWhile isSpaceChar).reverse.dropWhile isSpaceChar).reverse)

/-- Drop a literal prefix: under a `startsWith` guard this is exactly
`String.prototype.replace(prefixLiteral, "")`, which replaces only the
first occurrence. -/
def dropLiteral (s p : String) : String :=
  String.mk (s.data.drop p.data.length)

/-- Join components with `/`, as `path.relative`, `toPosix` and
`Array.prototype.join("/")` produce. -/
def joinSlash : List String → String
  | [] => ""
  | [x] => x
  | x :: y :: rest => x ++ "/" ++ joinSlash (y :: rest)

/-- Join content lines with `\n` (`contentLines.join("\n")`). -/
def joinNewline : List String → String
  | [] => ""
  | [x] => x
  | x :: y :: rest => x ++ "\n" ++ joinNewline (y :: rest)

/-! ### Filesystem model -/

inductive FNode where
  | file (content : String)
  | dir
  | symlink (target : String)
deriving DecidableEq, Repr

/-- A filesystem: association list from absolute component paths to
nodes.  The root directory `[]` always exists. -/
abbrev Fs := List (List String × FNode)

def Fs.lookup (fs : Fs) (p : List String) : Option FNode :=
  if p = [] then some FNode.dir
  else
    match fs.find? (fun e => e.1 = p) with
    | some e => some e.2
    | none => none

/-- Insert (or shadow) an entry; `lookup` sees the newest binding. -/
def Fs.insert (fs : Fs) (p : List String) (n : FNode) : Fs :=
  (p, n) :: fs

/-- Remove every entry at a path (models `unlink` of that name). -/
def Fs.erase (fs : Fs) (p : List String) : Fs :=
  fs.filter (fun e => ¬ e.1 = p)

/-- Errors surfaced by the modelled filesystem syscalls.  Node reports
them through `err.code`; the resolver only ever distinguishes
`ENOENT` from the rest. -/
inductive FsErr where
  | enoent
  | eloop
  | notdir
  | isdir
deriving DecidableEq, Repr

/-- One step of `fs.realpath`: walk the components, following symbolic
links (fuel bounds the expansions, standing in for the kernel's
`ELOOP` limit).  `.` and `..` are resolved physically against the part
already known to exist, exactly as the kernel does after a link target
re-introduces them. -/
def realpathAux (fs : Fs) : Nat → List String → List String → Except FsErr (List String)
  | _, cur, [] => Except.ok cur
  | 0, _, _ :: _ => Except.error FsErr.eloop
  | Nat.succ fuel, cur, c :: rest =>
    if c = "" || c = "." then realpathAux fs fuel cur rest
    else if c = ".." then realpathAux fs fuel cur.dropLast rest
    else
      match Fs.lookup fs (cur ++ [c]) with
      | none => Except.error FsErr.enoent
      | some (FNode.file _) =>
        if rest = [] then Except.ok (cur ++ [c]) else Except.error FsErr.notdir
      | some FNode.dir => realpathAux fs fuel (cur ++ [c]) rest
      | some (FNode.symlink t) =>
        realpathAux fs fuel (if strStartsWith t ("/") then [] else cur) (splitPath t ++ rest)

def realpathFuel (p : List String) : Nat :=
  (p.length + 1) * 64

def realpath (fs : Fs) (p : List String) : Except FsErr (List String) :=
  realpathAux fs (realpathFuel p) [] p

/-- `fs.access` follows symlinks: a path exists iff it resolves to an
existing node (a dangling link does not "exist" for `access`). -/
def fileExists (fs : Fs) (p : List String) : Bool :=
  match realpath fs p with
  | Except.ok _ => true
  | Except.error _ => false

/-! ### Sandbox path resolver (`sandboxPath.ts`) -/

/-- Errors thrown by the sandbox layer and the file tools.  `invalid`
carries the message of `assertRelativeSafe`; `escape` is
"Path escapes workspace root"; `io` wraps a filesystem error;
`alreadyExists` is the `File already exists` error of `fsWrite`;
`badLine` is the `Unrecognized patch line` error of
`parseSimplePatch`. -/
inductive Err where
  | invalid (msg : String)
  | escape
  | io (e : FsErr)
  | alreadyExists (rel : String)
  | badLine (line : String)
deriving DecidableEq, Repr

/-- `assertRelativeSafe` from `sandboxPath.ts`, checks in source
order: empty/whitespace, absolute (POSIX: leading `/`), UNC prefix,
drive qualifier (any `:`). -/
def assertRelativeSafe (inputPath : String) : Except Err Unit :=
  if jsTrim inputPath = "" then Except.error (Err.invalid ("Path is required"))
  else if strStartsWith inputPath ("/") then
    Except.error (Err.invalid ("Absolute paths are not allowed"))
  else if strStartsWith inputPath ("\\\\") then
    Except.error (Err.invalid ("UNC paths are not allowed"))
  else if strContainsChar inputPath ':' then
    Except.error (Err.invalid ("Drive-qualified paths are not allowed"))
  else Except.ok ()

/-- Lexical normalization performed by `path.resolve(rootReal,
inputPath)`: empty and `.` components are dropped, `..` pops (clamped
at the filesystem root), everything else is appended. -/
def resolveComps : List String → List String → List String
  | cur, [] => cur
  | cur, c :: rest =>
    if c = "" || c = "." then resolveComps cur rest
    else if c = ".." then resolveComps cur.dropLast rest
    else resolveComps (cur ++ [c]) rest

/-- `path.relative(a, b)` for two absolute normalized component paths:
strip the common prefix, then one `..` per remaining component of `a`
followed by the remainder of `b`. -/
def relComps : List String → List String → List String
  | [], b => b
  | x :: a, [] => List.replicate (x :: a).length ".."
  | x :: a, y :: b =>
    if x = y then relComps a b
    else List.replicate (x :: a).length ".." ++ (y :: b)

/-- `ensureWithin(rootReal, candidate)`: the joined relative path must
be empty or must neither start with `..` nor be absolute. -/
def ensureWithin (rootReal candidate : List String) : Except Err Unit :=
  let rel := relComps rootReal candidate
  if rel = [] then Except.ok ()
  else
    let relStr := joinSlash rel
    if strStartsWith relStr ("..") || strStartsWith relStr ("/") then Except.error Err.escape
    else Except.ok ()

/-- The `ENOENT` fallback loop of `resolveSandboxPath`: walk up the
ancestors of the (missing) resolved path until one exists, and check
that its realpath stays inside the workspace.  `path.dirname` is
`dropLast`; when `dirname(parent) === parent` (the filesystem root)
the last `ENOENT` is rethrown.  The fuel is structural only: the
caller passes one more than the path length, so it never runs out
before the root is reached. -/
def ancestorWalk (fs : Fs) (rootReal : List String) : Nat → List String → Except Err Unit
  | 0, _ => Except.error (Err.io FsErr.enoent)
  | Nat.succ fuel, parent =>
    match realpath fs parent with
    | Except.ok parentReal => ensureWithin rootReal parentReal
    | Except.error e =>
      if ¬ e = FsErr.enoent then Except.error (Err.io e)
      else if parent = [] then Except.error (Err.io e)
      else ancestorWalk fs rootReal fuel parent.dropLast

structure ResolvedPath where
  root : List String
  absolutePath : List String
  relativePath : String
deriving DecidableEq, Repr

/-- `resolveSandboxPath(root, inputPath)` from `sandboxPath.ts`:
validate the raw input, canonicalize the root, resolve lexically
against it, then canonicalize the result (falling back to the deepest
existing ancestor on `ENOENT`) and require containment both of the
canonical form and of the lexically resolved path. -/
def resolveSandboxPath (fs : Fs) (root : List String) (inputPath : String) :
    Except Err ResolvedPath :=
  match assertRelativeSafe inputPath with
  | Except.error e => Except.error e
  | Except.ok _ =>
    match realpath fs root with
    | Except.error e => Except.error (Err.io e)
    | Except.ok rootReal =>
      let resolved := resolveComps rootReal (splitPath inputPath)
      let checked : Except Err Unit :=
        match realpath fs resolved with
        | Except.ok targetReal => ensureWithin rootReal targetReal
        | Except.error e =>
          if ¬ e = FsErr.enoent then Except.error (Err.io e)
          else ancestorWalk fs rootReal (resolved.length + 1) resolved.dropLast
      match checked with
      | Except.error e => Except.error e
      | Except.ok _ =>
        match ensureWithin rootReal resolved with
        | Except.error e => Except.error e
        | Except.ok _ =>
          Except.ok
            { root := rootReal
              absolutePath := resolved
              relativePath := joinSlash (relComps rootReal resolved) }

/-- The canonical form the containment claim speaks about: the
realpath of the path, or — when the path does not exist — the realpath
of its deepest existing ancestor. -/
def canonicalOfAux (fs : Fs) : Nat → List String → Except FsErr (List String)
  | 0, p => realpath fs p
  | Nat.succ fuel, p =>
    match realpath fs p with
    | Except.ok c => Except.ok c
    | Except.error FsErr.enoent =>
      if p = [] then Except.error FsErr.enoent else canonicalOfAux fs fuel p.dropLast
    | Except.error e => Except.error e

def canonicalOf (fs : Fs) (p : List String) : Except FsErr (List String) :=
  canonicalOfAux fs (p.length + 1) p

/-- `b` is the root `a` itself or a descendant of it. -/
def isWithin (a b : List String) : Bool :=
  a.isPrefixOf b

instance {e a : Type} [DecidableEq e] [DecidableEq a] : DecidableEq (Except e a) := fun x y => by
  cases x <;> cases y <;> simp [Except.ok.injEq, Except.error.injEq] <;> infer_instance

/-! ### File tool primitives

Models of the Node primitives used by `fs.ts`: `fs.mkdir(p,
{recursive: true})`, `fs.writeFile`, `fs.unlink`.  Each call resolves
its own path, following symlinks in existing components; the partially
built filesystem is threaded so that effects performed before a throw
persist, as they do in the real code. -/

def mkdirRecAux : Nat → Fs → List String → List String → Fs × Option FsErr
  | _, fs, _, [] => (fs, none)
  | 0, fs, _, _ :: _ => (fs, some FsErr.eloop)
  | Nat.succ fuel, fs, cur, c :: rest =>
    if c = "" || c = "." then mkdirRecAux fuel fs cur rest
    else if c = ".." then mkdirRecAux fuel fs cur.dropLast rest
    else
      match Fs.lookup fs (cur ++ [c]) with
      | none => mkdirRecAux fuel (Fs.insert fs (cur ++ [c]) FNode.dir) (cur ++ [c]) rest
      | some FNode.dir => mkdirRecAux fuel fs (cur ++ [c]) rest
      | some (FNode.file _) => (fs, some FsErr.notdir)
      | some (FNode.symlink t) =>
        mkdirRecAux fuel fs (if strStartsWith t ("/") then [] else cur) (splitPath t ++ rest)

/-- `fs.mkdir(p, { recursive: true })`: create the missing directories
along `p`, leaving existing ones untouched. -/
def mkdirRec (fs : Fs) (p : List String) : Fs × Option FsErr :=
  mkdirRecAux (realpathFuel p) fs [] p

/-- `fs.writeFile(p, content)`: resolve the parent, then create or
replace the final entry, following a symlink at the final component
(fuel bounds the chain). -/
def writeFileAux : Nat → Fs → List String → String → Except FsErr Fs
  | 0, _, _, _ => Except.error FsErr.eloop
  | Nat.succ fuel, fs, p, content =>
    match p.getLast? with
    | none => Except.error FsErr.isdir
    | some base =>
      match realpath fs p.dropLast with
      | Except.error e => Except.error e
      | Except.ok parentReal =>
        match Fs.lookup fs parentReal with
        | some FNode.dir =>
          match Fs.lookup fs (parentReal ++ [base]) with
          | some (FNode.symlink t) =>
            writeFileAux fuel fs
              (if strStartsWith t ("/") then resolveComps [] (splitPath t)
               else resolveComps parentReal (splitPath t)) content
          | some FNode.dir => Except.error FsErr.isdir
          | _ => Except.ok (Fs.insert fs (parentReal ++ [base]) (FNode.file content))
        | _ => Except.error FsErr.notdir

def writeFile (fs : Fs) (p : List String) (content : String) : Except FsErr Fs :=
  writeFileAux 64 fs p content

/-- `fs.unlink(p)`: remove the final entry itself (a symlink is
removed, not followed). -/
def unlink (fs : Fs) (p : List String) : Except FsErr Fs :=
  match p.getLast? with
  | none => Except.error FsErr.isdir
  | some base =>
    match realpath fs p.dropLast with
    | Except.error e => Except.error e
    | Except.ok parentReal =>
      match Fs.lookup fs (parentReal ++ [base]) with
      | none => Except.error FsErr.enoent
      | some FNode.dir => Except.error FsErr.isdir
      | some _ => Except.ok (Fs.erase fs (parentReal ++ [base]))

/-- `ensureWorkspaceRoot(root)` from `sandboxPath.ts`: create the root
if missing, return its canonical absolute path. -/
def ensureWorkspaceRoot (fs : Fs) (root : List String) : Fs × Except FsErr (List String) :=
  match mkdirRec fs root with
  | (fs1, some e) => (fs1, Except.error e)
  | (fs1, none) => (fs1, realpath fs1 root)

/-! ### `fsWrite` and the envelope patch engine (`fs.ts`) -/

structure WriteResult where
  path : String
  bytesWritten : Nat
deriving DecidableEq, Repr

/-- `fsWrite(root, inputPath, content, overwrite)`.  The pair carries
the filesystem reached when the error is thrown (effects before a
throw persist). -/
def fsWrite (fs : Fs) (root : List String) (inputPath content : String) (overwrite : Bool) :
    Fs × Except Err WriteResult :=
  match ensureWorkspaceRoot fs root with
  | (fs1, Except.error e) => (fs1, Except.error (Err.io e))
  | (fs1, Except.ok rootReal) =>
    match resolveSandboxPath fs1 rootReal inputPath with
    | Except.error e => (fs1, Except.error e)
    | Except.ok r =>
      if fileExists fs1 r.absolutePath && !overwrite then
        (fs1, Except.error (Err.alreadyExists r.relativePath))
      else
        match mkdirRec fs1 r.absolutePath.dropLast with
        | (fs2, some e) => (fs2, Except.error (Err.io e))
        | (fs2, none) =>
          match writeFile fs2 r.absolutePath content with
          | Except.error e => (fs2, Except.error (Err.io e))
          | Except.ok fs3 =>
            (fs3, Except.ok { path := r.relativePath, bytesWritten := content.utf8ByteSize })

inductive OpType where
  | add
  | update
  | delete
deriving DecidableEq, Repr

structure PatchOp where
  type : OpType
  path : String
  content : Option String := none
deriving DecidableEq, Repr

/-- The inner content loop of `parseSimplePatch`: accumulate lines
until one starts with `*** ` (blank lines belong to the content). -/
def takeContent : List String → List String × List String
  | [] => ([], [])
  | l :: ls =>
    if strStartsWith l ("*** ") then ([], l :: ls)
    else
      match takeContent ls with
      | (c, r) => (l :: c, r)

/-- The directive loop of `parseSimplePatch`, in source order:
skip blank lines, stop at `*** End Patch`, parse `Add`/`Update`
(directive line, then content until the next `*** ` line) and
`Delete`, and throw `Unrecognized patch line` on anything else.
Under a `startsWith` guard, `line.replace(directive, "")` is exactly
`dropLiteral`.  The fuel exceeds the number of remaining lines, so
the `0` case is unreachable. -/
def parseOpsAux : Nat → List String → Except Err (List PatchOp)
  | _, [] => Except.ok []
  | 0, _ :: _ => Except.ok []
  | Nat.succ fuel, line :: rest =>
    if jsTrim line = "" then parseOpsAux fuel rest
    else if strStartsWith line ("*** End Patch") then Except.ok []
    else if strStartsWith line ("*** Add File:") then
      match takeContent rest with
      | (contentLines, rest2) =>
        match parseOpsAux fuel rest2 with
        | Except.error e => Except.error e
        | Except.ok ops =>
          Except.ok ({ type := OpType.add, path := jsTrim (dropLiteral line ("*** Add File:")),
                       content := some (joinNewline contentLines) } :: ops)
    else if strStartsWith line ("*** Update File:") then
      match takeContent rest with
      | (contentLines, rest2) =>
        match parseOpsAux fuel rest2 with
        | Except.error e => Except.error e
        | Except.ok ops =>
          Except.ok ({ type := OpType.update, path := jsTrim (dropLiteral line ("*** Update File:")),
                       content := some (joinNewline contentLines) } :: ops)
    else if strStartsWith line ("*** Delete File:") then
      match parseOpsAux fuel rest with
      | Except.error e => Except.error e
      | Except.ok ops =>
        Except.ok ({ type := OpType.delete, path := jsTrim (dropLiteral line ("*** Delete File:")) } :: ops)
    else Except.error (Err.badLine line)

/-- `parseSimplePatch`: split on `/\r?\n/`, skip a leading
`*** Begin Patch`, then run the directive loop. -/
def parseSimplePatch (patch : String) : Except Err (List PatchOp) :=
  let lines := splitLines patch
  let lines1 :=
    match lines with
    | l :: rest => if strStartsWith l ("*** Begin Patch") then rest else lines
    | [] => lines
  parseOpsAux (lines1.length + 1) lines1

structure PatchResult where
  applied : Bool
  summary : String
  changedFiles : List String
deriving DecidableEq, Repr

/-- The operation loop of `applySimplePatch`.  `total` is
`operations.length` (used in the success summary); `changed` is the
list of files changed so far, returned also on a failed operation.  A
`resolveSandboxPath` failure or an I/O failure is a throw and
propagates (`Except.error`), with the filesystem reached so far. -/
def applyOps (rootReal : List String) (total : Nat) :
    Fs → List PatchOp → List String → Fs × Except Err PatchResult
  | fs, [], changed =>
    (fs, Except.ok { applied := true,
                     summary := "Applied " ++ toString total ++ " operation(s)",
                     changedFiles := changed })
  | fs, op :: rest, changed =>
    match resolveSandboxPath fs rootReal op.path with
    | Except.error e => (fs, Except.error e)
    | Except.ok r =>
      match op.type with
      | OpType.add =>
        if fileExists fs r.absolutePath then
          (fs, Except.ok { applied := false,
                           summary := "Add failed, file exists: " ++ r.relativePath,
                           changedFiles := changed })
        else
          match mkdirRec fs r.absolutePath.dropLast with
          | (fs1, some e) => (fs1, Except.error (Err.io e))
          | (fs1, none) =>
            match writeFile fs1 r.absolutePath (op.content.getD "") with
            | Except.error e => (fs1, Except.error (Err.io e))
            | Except.ok fs2 => applyOps rootReal total fs2 rest (changed ++ [r.relativePath])
      | OpType.update =>
        if !(fileExists fs r.absolutePath) then
          (fs, Except.ok { applied := false,
                           summary := "Update failed, file missing: " ++ r.relativePath,
                           changedFiles := changed })
        else
          match writeFile fs r.absolutePath (op.content.getD "") with
          | Except.error e => (fs, Except.error (Err.io e))
          | Except.ok fs1 => applyOps rootReal total fs1 rest (changed ++ [r.relativePath])
      | OpType.delete =>
        if !(fileExists fs r.absolutePath) then
          (fs, Except.ok { applied := false,
                           summary := "Delete failed, file missing: " ++ r.relativePath,
                           changedFiles := changed })
        else
          match unlink fs r.absolutePath with
          | Except.error e => (fs, Except.error (Err.io e))
          | Except.ok fs1 => applyOps rootReal total fs1 rest (changed ++ [r.relativePath])

/-- `applySimplePatch(rootReal, patch)` from `fs.ts` (the envelope
dialect).  A parse failure is a throw. -/
def applySimplePatch (fs : Fs) (rootReal : List String) (patch : String) :
    Fs × Except Err PatchResult :=
  match parseSimplePatch patch with
  | Except.error e => (fs, Except.error e)
  | Except.ok ops => applyOps rootReal ops.length fs ops []

/-! ### The agent loop (`loop.js`)

The loop is modelled as a deterministic function of

* an environment holding the injected collaborators: the tool
  registry (`handlers`, `writeTools`), the `confirm` callback, the
  session logger (an append that may fail, exactly like
  `fs.appendFile` inside `createSessionLogger`), `JSON.parse` success
  on argument strings, and the router/specialist combination (a pure
  summary of `routeAgent` plus the one-shot specialist chat call);
* a provider script: the assistant message produced by each
  `client.chat`/`chatStream` call (`none` when the provider yields no
  usable message).  The streamed branch assembles exactly such a
  message via `mergeToolCallDeltas`, modelled separately below.

`JSON.stringify` of a tool result is modelled by a literal rendering
of the `{error: ...}` object (the embedded strings never need
escaping), and a successful handler already returns its serialized
payload.  A failing log append makes the turn throw; the conversation
mutations already performed are then discarded by the model — every
claim below is either about completed turns or only about the fact
that the failure propagates. -/

structure ToolCall where
  id : String
  name : String
  arguments : String
deriving DecidableEq, Repr

inductive Role where
  | system
  | user
  | assistant
  | tool
deriving DecidableEq, Repr

structure Msg where
  role : Role
  content : Option String := none
  tool_calls : List ToolCall := []
  tool_call_id : Option String := none
deriving DecidableEq, Repr

inductive ToolResult where
  | ok (payload : String)
  | err (message : String)
deriving DecidableEq, Repr

/-- `JSON.stringify(result)`: an error object renders as
`{"error":"..."}`; a successful handler result is kept as the payload
it serializes to. -/
def encodeResult : ToolResult → String
  | ToolResult.ok payload => payload
  | ToolResult.err m => "\x7b\"error\":\"" ++ m ++ "\"\x7d"

inductive LogEntry where
  | message (role : Role) (content : Option String) (tool_calls : List ToolCall)
  | toolCallEntry (name : String) (argumentsRaw : String) (parsed : Bool)
  | toolResultEntry (name : String) (result : ToolResult)
  | agentEntry (id name reason content : String)
deriving DecidableEq, Repr

/-- The outcome of `routeAgent` plus the specialist draft produced by
`runSpecialistAgent` for a routed request. -/
structure SpecialistNote where
  id : String
  name : String
  reason : String
  draft : String
deriving DecidableEq, Repr

structure LoopEnv (σ : Type) where
  maxSteps : Nat
  autoApprove : Bool
  writeTools : List String
  confirm : String → Bool
  handlers : String → Option (String → σ → σ × ToolResult)
  parseOk : String → Bool
  logFail : LogEntry → Option String
  routed : String → Option SpecialistNote
  systemPrompt : Bool → String

/-- `toolCall.function.arguments || "{}"`. -/
def argsEffective (raw : String) : String :=
  if raw = "" then "\x7b\x7d" else raw

/-- `message.content && message.content.trim().length > 0`. -/
def contentNonempty (m : Msg) : Bool :=
  match m.content with
  | some s => ¬ jsTrim s = ""
  | none => false

def buildAgentContext (name draft : String) : String :=
  "Specialist agent (" ++ name ++ ") output:\n" ++ draft ++
    "\nUse this as draft guidance and respond to the user."

structure TurnOutput (σ : Type) where
  messages : List Msg
  logs : List LogEntry
  state : σ
  result : String
deriving DecidableEq, Repr

/-- Execute one tool call of an assistant message: the argument-parse
failure branch, the confirm gate for writable tools, the unknown-tool
branch and the handler invocation (a throwing handler is a handler
returning `ToolResult.err` with the next state).  Returns the log
entries appended, the `tool` message pushed, and the state. -/
def execToolCall {σ : Type} (env : LoopEnv σ) (st : σ) (tc : ToolCall) :
    Except String (List LogEntry × Msg × σ) :=
  let toolName := tc.name
  if env.parseOk (argsEffective tc.arguments) = false then
    let e := "Invalid tool arguments for " ++ toolName
    let toolMsg : Msg :=
      { role := Role.tool, tool_call_id := some tc.id,
        content := some (encodeResult (ToolResult.err e)) }
    match env.logFail (LogEntry.toolCallEntry toolName tc.arguments false) with
    | some m => Except.error m
    | none =>
      match env.logFail (LogEntry.toolResultEntry toolName (ToolResult.err e)) with
      | some m => Except.error m
      | none =>
        Except.ok ([LogEntry.toolCallEntry toolName tc.arguments false,
                    LogEntry.toolResultEntry toolName (ToolResult.err e)], toolMsg, st)
  else
    match env.logFail (LogEntry.toolCallEntry toolName (argsEffective tc.arguments) true) with
    | some m => Except.error m
    | none =>
      let allowed :=
        if env.writeTools.contains toolName && !env.autoApprove then
          env.confirm ("Approve " ++ toolName ++ " to write to workspace? (y/N) ")
        else true
      let stepResult : σ × ToolResult :=
        if allowed = false then (st, ToolResult.err ("User declined write operation"))
        else
          match env.handlers toolName with
          | none => (st, ToolResult.err ("Unknown tool: " ++ toolName))
          | some handler => handler (argsEffective tc.arguments) st
      let toolMsg : Msg :=
        { role := Role.tool, tool_call_id := some tc.id,
          content := some (encodeResult stepResult.2) }
      match env.logFail (LogEntry.toolResultEntry toolName stepResult.2) with
      | some m => Except.error m
      | none =>
        Except.ok ([LogEntry.toolCallEntry toolName (argsEffective tc.arguments) true,
                    LogEntry.toolResultEntry toolName stepResult.2], toolMsg, stepResult.1)

/-- Execute the tool calls of one assistant message in order. -/
def execToolCalls {σ : Type} (env : LoopEnv σ) :
    σ → List ToolCall → Except String (List LogEntry × List Msg × σ)
  | st, [] => Except.ok ([], [], st)
  | st, tc :: rest =>
    match execToolCall env st tc with
    | Except.error m => Except.error m
    | Except.ok (logs1, msg1, st1) =>
      match execToolCalls env st1 rest with
      | Except.error m => Except.error m
      | Except.ok (logs2, msgs2, st2) => Except.ok (logs1 ++ logs2, msg1 :: msgs2, st2)

/-- The sentinel returned when the step budget is exhausted. -/
def maxStepsSentinel (n : Nat) : String :=
  "Reached max steps (" ++ toString n ++ ") without final response."

/-- The `for (let step = 0; step < maxSteps; ...)` loop of `runTurn`:
consume one scripted provider response per step; append the assistant
message and log it; execute tool calls and continue, or return
non-empty textual content; fall through on an empty message. -/
def runLoop {σ : Type} (env : LoopEnv σ) :
    Nat → List Msg → List LogEntry → σ → List (Option Msg) → Except String (TurnOutput σ)
  | 0, msgs, logs, st, _ =>
    Except.ok { messages := msgs, logs := logs, state := st,
                result := maxStepsSentinel env.maxSteps }
  | Nat.succ n, msgs, logs, st, script =>
    match script.head? with
    | none =>
      Except.ok { messages := msgs, logs := logs, state := st, result := "No response from model." }
    | some none =>
      Except.ok { messages := msgs, logs := logs, state := st, result := "No response from model." }
    | some (some m) =>
      let msgs1 := msgs ++ [m]
      match env.logFail (LogEntry.message Role.assistant m.content m.tool_calls) with
      | some e => Except.error e
      | none =>
        let logs1 := logs ++ [LogEntry.message Role.assistant m.content m.tool_calls]
        if 0 < m.tool_calls.length then
          match execToolCalls env st m.tool_calls with
          | Except.error e => Except.error e
          | Except.ok (tlogs, tmsgs, st2) =>
            runLoop env n (msgs1 ++ tmsgs) (logs1 ++ tlogs) st2 script.tail
        else if contentNonempty m then
          Except.ok { messages := msgs1, logs := logs1, state := st,
                      result := m.content.getD "" }
        else runLoop env n msgs1 logs1 st script.tail

/-- `runTurn(request)`: push and log the user message, run the router
and specialist (appending the synthesized system note when the draft
is non-blank), then enter the step loop. -/
def runTurn {σ : Type} (env : LoopEnv σ) (msgs₀ : List Msg) (st : σ)
    (request : String) (script : List (Option Msg)) : Except String (TurnOutput σ) :=
  let userMsg : Msg := { role := Role.user, content := some request }
  match env.logFail (LogEntry.message Role.user (some request) []) with
  | some e => Except.error e
  | none =>
    let msgs1 := msgs₀ ++ [userMsg]
    let logs1 := [LogEntry.message Role.user (some request) []]
    match env.routed request with
    | none => runLoop env env.maxSteps msgs1 logs1 st script
    | some sp =>
      if ¬ jsTrim sp.draft = "" then
        match env.logFail (LogEntry.agentEntry sp.id sp.name sp.reason sp.draft) with
        | some e => Except.error e
        | none =>
          runLoop env env.maxSteps
            (msgs1 ++ [{ role := Role.system, content := some (buildAgentContext sp.name sp.draft) }])
            (logs1 ++ [LogEntry.agentEntry sp.id sp.name sp.reason sp.draft]) st script
      else runLoop env env.maxSteps msgs1 logs1 st script

/-- `reset()`: replace the conversation with a fresh system prompt. -/
def resetConversation {σ : Type} (env : LoopEnv σ) : List Msg :=
  [{ role := Role.system, content := some (env.systemPrompt env.autoApprove) }]

/-- The writable-tool allow-list of `createToolRegistry`. -/
def registryWriteTools : List String :=
  ["fs_write", "fs_apply_patch"]

/-! ### Streaming tool-call assembly (`mergeToolCallDeltas`)

The accumulating array is a JavaScript array that `target[index] =
...` may extend sparsely, so it is modelled as a list of `Option
ToolCall` (a `none` is a hole).  `Date.now()` is modelled by an
abstract clock that advances once per processed delta.  One deliberate
deviation: `resolveToolCallIndex` runs `target.findIndex((call) =>
call.id === delta.id)`, which in JavaScript throws a `TypeError` when
the scan crosses a hole; the model treats a hole as a non-match.  The
theorems below never hit that case (their targets have no holes, and
the general statement only concerns deltas carrying an index, for
which `findIndex` is never reached). -/

structure ToolCallDelta where
  index : Option Nat := none
  id : Option String := none
  name : Option String := none
  arguments : Option String := none
deriving DecidableEq, Repr

/-- JavaScript truthiness of an optional string: absent and `""` are
falsy. -/
def jsTruthy : Option String → Bool
  | none => false
  | some s => ¬ s = ""

/-- `resolveToolCallIndex(target, delta)`. -/
def resolveToolCallIndex (target : List (Option ToolCall)) (delta : ToolCallDelta) : Nat :=
  match delta.index with
  | some i => i
  | none =>
    if jsTruthy delta.id then
      match target.findIdx? (fun c =>
          match c with
          | some call => call.id = delta.id.getD ""
          | none => false) with
      | some j => j
      | none => target.length
    else target.length

/-- `target[j]` (a read past the end or at a hole is `undefined`). -/
def getSlot (target : List (Option ToolCall)) (j : Nat) : Option ToolCall :=
  target.getD j none

/-- `target[i] = some v`, extending the array with holes if needed. -/
def setSlot (target : List (Option ToolCall)) (i : Nat) (v : ToolCall) :
    List (Option ToolCall) :=
  (target ++ List.replicate (i + 1 - target.length) none).set i (some v)

/-- Merge a single delta at clock value `now`: pick the slot, create
the entry if the slot is empty (synthesizing
`call_<timestamp>_<index>` when the delta has no id — `??` is nullish,
so an explicit `""` id is kept), then overwrite the id when a truthy
one is given, set the name when truthy, and append the argument
chunk. -/
def mergeOneDelta (now : Nat) (target : List (Option ToolCall)) (delta : ToolCallDelta) :
    List (Option ToolCall) :=
  let i := resolveToolCallIndex target delta
  let current0 : ToolCall :=
    match getSlot target i with
    | none =>
      { id := delta.id.getD ("call_" ++ toString now ++ "_" ++ toString i),
        name := "", arguments := "" }
    | some c => c
  let current1 :=
    if jsTruthy delta.id && ¬ current0.id = delta.id.getD "" then
      { current0 with id := delta.id.getD "" }
    else current0
  let current2 :=
    if jsTruthy delta.name then { current1 with name := delta.name.getD "" } else current1
  let current3 :=
    if jsTruthy delta.arguments then
      { current2 with arguments := current2.arguments ++ delta.arguments.getD "" }
    else current2
  setSlot target i current3

/-- `mergeToolCallDeltas(target, deltas)` over one chunk (and, by
associativity of the fold, over a whole stream of chunks). -/
def mergeToolCallDeltas (now : Nat) (target : List (Option ToolCall)) :
    List ToolCallDelta → List (Option ToolCall)
  | [] => target
  | d :: ds => mergeToolCallDeltas (now + 1) (mergeOneDelta now target d) ds

/-! ### Lemmas about slot access in the delta merge -/

theorem getSlot_nil (j : Nat) : getSlot [] j = none := by
  simp [getSlot]

theorem getSlot_append_replicate (l : List (Option ToolCall)) (k j : Nat) :
    getSlot (l ++ List.replicate k none) j = getSlot l j := by
  simp only [getSlot, List.getD_eq_getElem?_getD, List.getElem?_append]
  by_cases h : j < l.length
  · simp [h]
  · simp only [h, if_false, List.getElem?_replicate]
    rw [List.getElem?_eq_none (Nat.le_of_not_lt h)]
    by_cases h2 : j - l.length < k <;> simp [h2]

theorem getSlot_setSlot_self (l : List (Option ToolCall)) (i : Nat) (v : ToolCall) :
    getSlot (setSlot l i v) i = some v := by
  have hlen : i < (l ++ List.replicate (i + 1 - l.length) none).length := by
    simp only [List.length_append, List.length_replicate]
    omega
  simp [getSlot, setSlot, List.getD_eq_getElem?_getD, List.getElem?_set_self hlen]

theorem getSlot_setSlot_ne (l : List (Option ToolCall)) (i j : Nat) (v : ToolCall)
    (h : i ≠ j) : getSlot (setSlot l i v) j = getSlot l j := by
  simp only [setSlot, getSlot, List.getD_eq_getElem?_getD, List.getElem?_set_ne h]
  have := getSlot_append_replicate l (i + 1 - l.length) j
  simpa [getSlot, List.getD_eq_getElem?_getD] using this

/-- The per-slot update a delta performs, independent of the clock
(meaningful when slot creation happens on a delta that carries an
id). -/
def stepCell (cur : Option ToolCall) (d : ToolCallDelta) : Option ToolCall :=
  let current0 : ToolCall :=
    match cur with
    | none => { id := d.id.getD "", name := "", arguments := "" }
    | some c => c
  let current1 :=
    if jsTruthy d.id && ¬ current0.id = d.id.getD "" then
      { current0 with id := d.id.getD "" }
    else current0
  let current2 :=
    if jsTruthy d.name then { current1 with name := d.name.getD "" } else current1
  let current3 :=
    if jsTruthy d.arguments then
      { current2 with arguments := current2.arguments ++ d.arguments.getD "" }
    else current2
  some current3

theorem stepCell_isSome (cur : Option ToolCall) (d : ToolCallDelta) :
    (stepCell cur d).isSome := by
  cases cur <;> simp [stepCell]

theorem mergeOne_cell_hit (now : Nat) (target : List (Option ToolCall)) (d : ToolCallDelta)
    (j : Nat) (hidx : d.index = some j)
    (hcreate : getSlot target j = none → (d.id).isSome) :
    getSlot (mergeOneDelta now target d) j = stepCell (getSlot target j) d := by
  have hres : resolveToolCallIndex target d = j := by
    simp [resolveToolCallIndex, hidx]
  cases hslot : getSlot target j with
  | none =>
    obtain ⟨s, hs⟩ := Option.isSome_iff_exists.mp (hcreate hslot)
    simp [mergeOneDelta, stepCell, hres, hslot, hs, getSlot_setSlot_self]
  | some c =>
    simp [mergeOneDelta, stepCell, hres, hslot, getSlot_setSlot_self]

theorem mergeOne_cell_miss (now : Nat) (target : List (Option ToolCall)) (d : ToolCallDelta)
    (i j : Nat) (hidx : d.index = some i) (hne : i ≠ j) :
    getSlot (mergeOneDelta now target d) j = getSlot target j := by
  have hres : resolveToolCallIndex target d = i := by
    simp [resolveToolCallIndex, hidx]
  simp only [mergeOneDelta, hres]
  exact getSlot_setSlot_ne _ _ _ _ hne

/-- Cell characterization of the merge when every delta carries a
numeric index: slot `j` sees exactly its own subsequence of deltas,
and the clock is irrelevant as long as the delta creating the slot
carries an id. -/
theorem merge_cell (j : Nat) :
    ∀ (ds : List ToolCallDelta) (now : Nat) (target : List (Option ToolCall)),
      (∀ d ∈ ds, (d.index).isSome) →
      (getSlot target j = none →
        ∀ d₀, ((ds.filter (fun x => decide (x.index = some j))).head? = some d₀) → (d₀.id).isSome) →
      getSlot (mergeToolCallDeltas now target ds) j =
        (ds.filter (fun x => decide (x.index = some j))).foldl stepCell (getSlot target j)
  | [], now, target, _, _ => by simp [mergeToolCallDeltas]
  | d :: rest, now, target, hidx, hfirst => by
    obtain ⟨i, hi⟩ := Option.isSome_iff_exists.mp (hidx d (List.mem_cons_self d rest))
    by_cases hij : i = j
    · subst hij
      have hfcons : (d :: rest).filter (fun x => decide (x.index = some i)) =
          d :: rest.filter (fun x => decide (x.index = some i)) := by
        simp [List.filter_cons, hi]
      have hcreate : getSlot target i = none → (d.id).isSome := by
        intro hnone
        exact hfirst hnone d (by rw [hfcons]; rfl)
      have hstep := mergeOne_cell_hit now target d i hi hcreate
      have hrec := merge_cell i rest (now + 1) (mergeOneDelta now target d)
        (fun x hx => hidx x (List.mem_cons_of_mem d hx))
        (by
          intro hnone
          rw [hstep] at hnone
          have := stepCell_isSome (getSlot target i) d
          rw [hnone] at this
          simp at this)
      rw [show mergeToolCallDeltas now target (d :: rest) =
            mergeToolCallDeltas (now + 1) (mergeOneDelta now target d) rest from rfl,
          hrec, hstep, hfcons, List.foldl_cons]
    · have hmiss := mergeOne_cell_miss now target d i j hi hij
      have hfcons : (d :: rest).filter (fun x => decide (x.index = some j)) =
          rest.filter (fun x => decide (x.index = some j)) := by
        simp [List.filter_cons, hi, hij]
      have hrec := merge_cell j rest (now + 1) (mergeOneDelta now target d)
        (fun x hx => hidx x (List.mem_cons_of_mem d hx))
        (by
          intro hnone d₀ hd₀
          rw [hmiss] at hnone
          exact hfirst hnone d₀ (by rw [hfcons]; exact hd₀))
      rw [show mergeToolCallDeltas now target (d :: rest) =
            mergeToolCallDeltas (now + 1) (mergeOneDelta now target d) rest from rfl,
          hrec, hmiss, hfcons]

/-- Whether the first delta of a slot subsequence carries an id (so
that slot creation does not depend on the synthesized timestamp). -/
def headIdOk (l : List ToolCallDelta) : Bool :=
  match l.head? with
  | none => true
  | some d => (d.id).isSome

/-- C5, amended.  When every streamed delta carries a numeric `index`
(the slot), assembling from any interleaving that preserves per-slot
delta order yields the same final `{id, name, argumentsJson}` for
every slot; an interleaving consistent with per-slot order is exactly
a sequence whose subsequence of slot-`j` deltas is the slot's own
delta sequence, which is the `hj` hypothesis.  The first delta of the
slot must carry an id, otherwise the synthesized
`call_<timestamp>_<index>` id depends on the arrival time.  Without a
numeric index the claim fails (see the counterexample). -/
theorem c5_streaming_idempotence (ds₁ ds₂ : List ToolCallDelta) (t₁ t₂ j : Nat)
    (h₁ : ∀ d ∈ ds₁, (d.index).isSome) (h₂ : ∀ d ∈ ds₂, (d.index).isSome)
    (hj : ds₁.filter (fun x => decide (x.index = some j)) =
      ds₂.filter (fun x => decide (x.index = some j)))
    (hfirst : headIdOk (ds₁.filter (fun x => decide (x.index = some j))) = true) :
    getSlot (mergeToolCallDeltas t₁ [] ds₁) j = getSlot (mergeToolCallDeltas t₂ [] ds₂) j := by
  have hfirst1 : getSlot ([] : List (Option ToolCall)) j = none →
      ∀ d₀, ((ds₁.filter (fun x => decide (x.index = some j))).head? = some d₀) →
        (d₀.id).isSome := by
    intro _ d₀ hd₀
    unfold headIdOk at hfirst
    rw [hd₀] at hfirst
    exact hfirst
  have hfirst2 : getSlot ([] : List (Option ToolCall)) j = none →
      ∀ d₀, ((ds₂.filter (fun x => decide (x.index = some j))).head? = some d₀) →
        (d₀.id).isSome := by
    intro hn d₀ hd₀
    exact hfirst1 hn d₀ (by rw [hj]; exact hd₀)
  rw [merge_cell j ds₁ t₁ [] h₁ hfirst1, merge_cell j ds₂ t₂ [] h₂ hfirst2, hj]

/-- Slot-0 stream of the counterexample: a single delta with no
`index`, an id and an argument chunk. -/
def deltaNoIndex : ToolCallDelta :=
  { id := some "x", arguments := some "1" }

/-- Slot-1 stream of the counterexample: a single delta addressing
array index 0 with an id and a name. -/
def deltaIndexZero : ToolCallDelta :=
  { index := some 0, id := some "y", name := some "n" }

/-- C5, counterexample to the claim as stated.  The two orders
`[deltaNoIndex, deltaIndexZero]` and `[deltaIndexZero, deltaNoIndex]`
are the two interleavings of the singleton per-slot streams
`[deltaNoIndex]` and `[deltaIndexZero]`, so both preserve per-slot
delta order; yet the assembled slot 0 differs (`arguments` is `"1"`
in one order and `""` in the other, the second order also appends a
second slot).  The slot rule is order-sensitive for deltas without a
numeric `index`: id-matching against an entry created earlier differs
from appending a fresh entry. -/
theorem c5_streaming_idempotence_counterexample :
    ¬ getSlot (mergeToolCallDeltas 0 [] [deltaNoIndex, deltaIndexZero]) 0 =
      getSlot (mergeToolCallDeltas 0 [] [deltaIndexZero, deltaNoIndex]) 0 := by
  decide

def deltaSlotZeroA : ToolCallDelta := { index := some 0, id := some "a", name := some "f" }

def deltaSlotZeroB : ToolCallDelta := { index := some 0, arguments := some "xy" }

def deltaSlotOne : ToolCallDelta :=
  { index := some 1, id := some "b", name := some "g", arguments := some "z" }

/-- C5 witness: two interleavings of the slot streams
`[deltaSlotZeroA, deltaSlotZeroB]` and `[deltaSlotOne]`, assembled at
different clock values, agree on slot 0. -/
theorem c5_streaming_idempotence_witness :
    (∀ d ∈ [deltaSlotZeroA, deltaSlotZeroB, deltaSlotOne], (d.index).isSome) ∧
    getSlot (mergeToolCallDeltas 0 [] [deltaSlotZeroA, deltaSlotZeroB, deltaSlotOne]) 0 =
      getSlot (mergeToolCallDeltas 5 [] [deltaSlotOne, deltaSlotZeroA, deltaSlotZeroB]) 0 :=
  ⟨by decide,
    c5_streaming_idempotence [deltaSlotZeroA, deltaSlotZeroB, deltaSlotOne]
      [deltaSlotOne, deltaSlotZeroA, deltaSlotZeroB] 0 5 0
      (by decide) (by decide) (by decide) (by decide)⟩

/-! ### Lemmas about the sandbox resolver -/

theorem relComps_self : ∀ a : List String, relComps a a = []
  | [] => rfl
  | x :: a => by simp [relComps, relComps_self a]

theorem ensureWithin_self (a : List String) : ensureWithin a a = Except.ok () := by
  simp [ensureWithin, relComps_self]

theorem strStartsWith_dotdot_append (s : String) :
    strStartsWith (".." ++ s) (("..")) = true := by
  simp [strStartsWith, String.data_append, List.isPrefixOf]

theorem joinSlash_dotdot (rest : List String) :
    strStartsWith (joinSlash (".." :: rest)) (("..")) = true := by
  cases rest with
  | nil => decide
  | cons y rest =>
    show strStartsWith (".." ++ "/" ++ joinSlash (y :: rest)) (("..")) = true
    rw [String.append_assoc]
    exact strStartsWith_dotdot_append _

/-- A relative path that starts with a block of `..` components fails
`ensureWithin`. -/
theorem ensureWithin_dotdot (a b : List String) (rest : List String)
    (h : relComps a b = ".." :: rest) : ensureWithin a b = Except.error Err.escape := by
  simp [ensureWithin, h, joinSlash_dotdot]

theorem ensureWithin_congr (a b a' b' : List String)
    (h : relComps a b = relComps a' b') : ensureWithin a b = ensureWithin a' b' := by
  simp [ensureWithin, h]

/-- `ensureWithin` accepting means containment: the candidate is the
root or a descendant. -/
theorem ensureWithin_ok_isWithin :
    ∀ (a b : List String), ensureWithin a b = Except.ok () → isWithin a b = true
  | [], b, _ => by simp [isWithin, List.isPrefixOf]
  | x :: a, [], h => by
    exfalso
    have hrel : relComps (x :: a) [] = ".." :: List.replicate a.length ".." := by
      simp [relComps, List.replicate_succ]
    rw [ensureWithin_dotdot (x :: a) [] _ hrel] at h
    exact Except.noConfusion h
  | x :: a, y :: b, h => by
    by_cases hxy : x = y
    · subst hxy
      have hrel : relComps (x :: a) (x :: b) = relComps a b := by simp [relComps]
      have hsub : ensureWithin a b = Except.ok () := by
        rw [ensureWithin_congr a b (x :: a) (x :: b) hrel.symm]
        exact h
      have := ensureWithin_ok_isWithin a b hsub
      simpa [isWithin, List.isPrefixOf] using this
    · exfalso
      have hrel : relComps (x :: a) (y :: b) =
          ".." :: (List.replicate a.length ".." ++ (y :: b)) := by
        simp [relComps, hxy, List.replicate_succ]
      rw [ensureWithin_dotdot (x :: a) (y :: b) _ hrel] at h
      exact Except.noConfusion h

theorem realpath_nil (fs : Fs) : realpath fs [] = Except.ok [] := rfl

theorem ancestorWalk_succ_eq (fs : Fs) (rootReal : List String) (f : Nat) (p : List String) :
    ancestorWalk fs rootReal (f + 1) p =
      (match realpath fs p with
       | Except.ok parentReal => ensureWithin rootReal parentReal
       | Except.error e =>
         if ¬ e = FsErr.enoent then Except.error (Err.io e)
         else if p = [] then Except.error (Err.io e)
         else ancestorWalk fs rootReal f p.dropLast) := rfl

theorem ancestorWalk_succ_ok (fs : Fs) (rootReal : List String) (f : Nat) (p q : List String)
    (h : realpath fs p = Except.ok q) :
    ancestorWalk fs rootReal (f + 1) p = ensureWithin rootReal q := by
  rw [ancestorWalk_succ_eq, h]

theorem ancestorWalk_succ_enoent (fs : Fs) (rootReal : List String) (f : Nat) (p : List String)
    (h : realpath fs p = Except.error FsErr.enoent) (hp : ¬ p = []) :
    ancestorWalk fs rootReal (f + 1) p = ancestorWalk fs rootReal f p.dropLast := by
  rw [ancestorWalk_succ_eq, h]
  simp [hp]

theorem ancestorWalk_succ_err (fs : Fs) (rootReal : List String) (f : Nat) (p : List String)
    (e : FsErr) (h : realpath fs p = Except.error e) (he : ¬ e = FsErr.enoent) :
    ancestorWalk fs rootReal (f + 1) p = Except.error (Err.io e) := by
  rw [ancestorWalk_succ_eq, h]
  simp [he]

theorem canonicalOfAux_succ_eq (fs : Fs) (f : Nat) (p : List String) :
    canonicalOfAux fs (f + 1) p =
      (match realpath fs p with
       | Except.ok c => Except.ok c
       | Except.error FsErr.enoent =>
         if p = [] then Except.error FsErr.enoent else canonicalOfAux fs f p.dropLast
       | Except.error e => Except.error e) := rfl

theorem canonicalOfAux_succ_ok (fs : Fs) (f : Nat) (p c : List String)
    (h : realpath fs p = Except.ok c) : canonicalOfAux fs (f + 1) p = Except.ok c := by
  rw [canonicalOfAux_succ_eq, h]

theorem canonicalOfAux_succ_enoent (fs : Fs) (f : Nat) (p : List String)
    (h : realpath fs p = Except.error FsErr.enoent) (hp : ¬ p = []) :
    canonicalOfAux fs (f + 1) p = canonicalOfAux fs f p.dropLast := by
  rw [canonicalOfAux_succ_eq, h]
  simp [hp]

/-- Success of the `ENOENT` ancestor walk yields exactly the
deepest-existing-ancestor realpath, and that realpath is contained in
the root. -/
theorem ancestorWalk_spec (fs : Fs) (rootReal : List String) :
    ∀ (f₁ : Nat) (p : List String) (u : Unit) (f₂ : Nat), p.length < f₁ → p.length < f₂ →
      ancestorWalk fs rootReal f₁ p = Except.ok u →
      ∃ c, canonicalOfAux fs f₂ p = Except.ok c ∧ isWithin rootReal c = true
  | 0, p, _, _, h₁, _, _ => absurd h₁ (by omega)
  | Nat.succ f₁, p, u, f₂, h₁, h₂, hwalk => by
    obtain ⟨f₂', rfl⟩ : ∃ f₂', f₂ = f₂' + 1 := ⟨f₂ - 1, by omega⟩
    cases hrp : realpath fs p with
    | ok q =>
      rw [ancestorWalk_succ_ok fs rootReal f₁ p q hrp] at hwalk
      exact ⟨q, canonicalOfAux_succ_ok fs f₂' p q hrp,
        ensureWithin_ok_isWithin rootReal q hwalk⟩
    | error e =>
      by_cases he : e = FsErr.enoent
      · subst he
        by_cases hp : p = []
        · subst hp
          rw [realpath_nil fs] at hrp
          exact Except.noConfusion hrp
        · rw [ancestorWalk_succ_enoent fs rootReal f₁ p hrp hp] at hwalk
          have hpos : 0 < p.length := List.length_pos.mpr hp
          have hdl := List.length_dropLast p
          obtain ⟨c, hc, hw⟩ := ancestorWalk_spec fs rootReal f₁ p.dropLast u f₂'
            (by omega) (by omega) hwalk
          exact ⟨c, by rw [canonicalOfAux_succ_enoent fs f₂' p hrp hp]; exact hc, hw⟩
      · rw [ancestorWalk_succ_err fs rootReal f₁ p e hrp he] at hwalk
        exact Except.noConfusion hwalk

/-- Workspace used by the symlink-escape instance: `ws` is the root,
`ws/link` is a symbolic link to the outside directory `/outside`. -/
def fsSymlinkEscape : Fs :=
  [(["ws"], FNode.dir), (["outside"], FNode.dir), (["ws", "link"], FNode.symlink ("/outside"))]

/-- C1.  Sandbox containment: whenever `resolveSandboxPath(root,
inputPath)` succeeds, the realpath of the returned absolute path — or,
when the path does not exist, the realpath of its deepest existing
ancestor (`canonicalOf`) — is the canonical root or a descendant of
it; and an input that reaches a symlink whose target lies outside the
root fails (second conjunct, the `root/link → /outside` instance with
input `link/evil.txt`, rejected with `Escape`). -/
theorem c1_sandbox_containment :
    (∀ (fs : Fs) (root : List String) (input : String) (r : ResolvedPath),
        resolveSandboxPath fs root input = Except.ok r →
        ∃ c, canonicalOf fs r.absolutePath = Except.ok c ∧ isWithin r.root c = true)
    ∧ resolveSandboxPath fsSymlinkEscape ["ws"] ("link/evil.txt") = Except.error Err.escape := by
  constructor
  · intro fs root input r h
    unfold resolveSandboxPath at h
    split at h
    · exact absurd h (by simp)
    · split at h
      · exact absurd h (by simp)
      · rename_i rootReal hroot
        dsimp only at h
        split at h
        · exact absurd h (by simp)
        · rename_i u hchecked
          split at h
          · exact absurd h (by simp)
          · rename_i u2 hlex
            injection h with h
            subst h
            dsimp only
            split at hchecked
            · rename_i targetReal hrt
              refine ⟨targetReal, ?_, ensureWithin_ok_isWithin _ _ hchecked⟩
              unfold canonicalOf
              exact canonicalOfAux_succ_ok _ _ _ _ hrt
            · rename_i e hre
              by_cases he : e = FsErr.enoent
              · subst he
                rw [if_neg (by simp)] at hchecked
                have hp : ¬ (resolveComps rootReal (splitPath input)) = [] := by
                  intro hnil
                  rw [hnil, realpath_nil fs] at hre
                  exact Except.noConfusion hre
                have hpos : 0 < (resolveComps rootReal (splitPath input)).length :=
                  List.length_pos.mpr hp
                have hdl := List.length_dropLast (resolveComps rootReal (splitPath input))
                obtain ⟨c, hc, hw⟩ := ancestorWalk_spec fs rootReal
                  ((resolveComps rootReal (splitPath input)).length + 1)
                  (resolveComps rootReal (splitPath input)).dropLast u
                  (resolveComps rootReal (splitPath input)).length
                  (by omega) (by omega) hchecked
                refine ⟨c, ?_, hw⟩
                unfold canonicalOf
                rw [canonicalOfAux_succ_enoent fs _ _ hre hp]
                exact hc
              · rw [if_pos (by simpa using he)] at hchecked
                exact Except.noConfusion hchecked
  · rfl

/-- C1 witness: the containment statement applied to the concrete
workspace `fsSymlinkEscape` at input `notes/plan.txt` (resolves to a
missing file; the deepest existing ancestor is the root itself). -/
theorem c1_sandbox_containment_witness :
    resolveSandboxPath fsSymlinkEscape ["ws"] ("notes/plan.txt") =
      Except.ok { root := ["ws"], absolutePath := ["ws", "notes", "plan.txt"],
                  relativePath := "notes/plan.txt" } ∧
    ∃ c, canonicalOf fsSymlinkEscape ["ws", "notes", "plan.txt"] = Except.ok c ∧
      isWithin ["ws"] c = true :=
  ⟨by rfl,
    c1_sandbox_containment.1 fsSymlinkEscape ["ws"] ("notes/plan.txt")
      { root := ["ws"], absolutePath := ["ws", "notes", "plan.txt"],
        relativePath := "notes/plan.txt" } (by rfl)⟩

/-- C10.  The workspace root itself is an accepted target: for a
canonical existing root, `resolveSandboxPath(root, ".")` succeeds and
returns the root as `absolutePath` with the empty string as
`relativePath`; more generally any input passing `assertRelativeSafe`
whose lexical resolution against the root is the root itself succeeds
the same way (the containment check accepts the empty relative path).
`fsList` resolves its default path `"."` through exactly this case. -/
theorem c10_root_is_accepted (fs : Fs) (root : List String)
    (hroot : realpath fs root = Except.ok root) :
    resolveSandboxPath fs root (".") =
      Except.ok { root := root, absolutePath := root, relativePath := "" } ∧
    (∀ input : String, assertRelativeSafe input = Except.ok () →
      resolveComps root (splitPath input) = root →
      resolveSandboxPath fs root input =
        Except.ok { root := root, absolutePath := root, relativePath := "" }) := by
  have hb : ∀ input : String, assertRelativeSafe input = Except.ok () →
      resolveComps root (splitPath input) = root →
      resolveSandboxPath fs root input =
        Except.ok { root := root, absolutePath := root, relativePath := "" } := by
    intro input hsafe hres
    unfold resolveSandboxPath
    rw [hsafe, hroot]
    dsimp only
    rw [hres, hroot]
    dsimp only
    rw [ensureWithin_self]
    dsimp only
    rw [relComps_self]
    rfl
  refine ⟨?_, hb⟩
  apply hb
  · rfl
  · show resolveComps root ["."] = root
    simp [resolveComps]

/-- C10 witness: the theorem applied to the concrete workspace of the
symlink example (whose root is canonical). -/
theorem c10_root_is_accepted_witness :
    realpath fsSymlinkEscape ["ws"] = Except.ok ["ws"] ∧
    resolveSandboxPath fsSymlinkEscape ["ws"] (".") =
      Except.ok { root := ["ws"], absolutePath := ["ws"], relativePath := "" } :=
  ⟨by rfl, (c10_root_is_accepted fsSymlinkEscape ["ws"] (by rfl)).1⟩

/-! ### Plain filesystems

The general file-tool theorems are stated for paths made of plain
components (no `""`, `"."`, `".."`) whose ancestor chain consists of
directories; symlinks elsewhere in the filesystem are irrelevant
because the traversal lemmas only inspect the chain itself. -/

def plainComp (c : String) : Bool :=
  ¬ (c = "" || c = "." || c = "..")

def noSymlinks (fs : Fs) : Bool :=
  fs.all (fun e =>
    match e.2 with
    | FNode.symlink _ => false
    | _ => true)

/-- Every non-empty prefix of `todo`, extended from `cur`, is a
directory. -/
def allDirsAux (fs : Fs) : List String → List String → Bool
  | _, [] => true
  | cur, c :: rest =>
    (Fs.lookup fs (cur ++ [c]) = some FNode.dir) && allDirsAux fs (cur ++ [c]) rest

def allDirs (fs : Fs) (p : List String) : Bool :=
  allDirsAux fs [] p

theorem lookup_insert_self (fs : Fs) (q : List String) (n : FNode) (hq : ¬ q = []) :
    Fs.lookup (Fs.insert fs q n) q = some n := by
  simp [Fs.lookup, Fs.insert, hq, List.find?]

theorem lookup_insert_ne (fs : Fs) (q : List String) (n : FNode) (p : List String)
    (h : ¬ p = q) : Fs.lookup (Fs.insert fs q n) p = Fs.lookup fs p := by
  by_cases hp : p = []
  · simp [Fs.lookup, hp]
  · simp only [Fs.lookup, hp, if_false, Fs.insert, List.find?]
    have : (decide (q = p)) = false := by
      simp
      intro hqp
      exact h hqp.symm
    rw [this]

theorem find_key_erase (q p : List String) (h : ¬ p = q) :
    ∀ fs : Fs, (Fs.erase fs q).find? (fun e => e.1 = p) = fs.find? (fun e => e.1 = p)
  | [] => rfl
  | e :: fs => by
    have ih := find_key_erase q p h fs
    simp only [Fs.erase] at ih ⊢
    by_cases heq : e.1 = q
    · have hnp : ¬ ((fun x : List String × FNode => decide (x.1 = p)) e = true) := by
        simp
        intro hep
        exact h (heq ▸ hep ▸ rfl)
      rw [List.filter_cons, if_neg (by simpa using heq), List.find?_cons_of_neg fs hnp]
      exact ih
    · rw [List.filter_cons, if_pos (by simpa using heq)]
      by_cases hp : e.1 = p
      · rw [List.find?_cons_of_pos _ (by simpa using hp),
            List.find?_cons_of_pos _ (by simpa using hp)]
      · rw [List.find?_cons_of_neg _ (by simpa using hp),
            List.find?_cons_of_neg _ (by simpa using hp)]
        exact ih

theorem lookup_erase_ne (fs : Fs) (q p : List String) (h : ¬ p = q) :
    Fs.lookup (Fs.erase fs q) p = Fs.lookup fs p := by
  by_cases hp : p = []
  · simp [Fs.lookup, hp]
  · simp only [Fs.lookup, hp, if_false]
    rw [find_key_erase q p h fs]

theorem lookup_none_find_none (fs : Fs) (p : List String) (hp : ¬ p = [])
    (h : Fs.lookup fs p = none) : fs.find? (fun e => e.1 = p) = none := by
  simp only [Fs.lookup, hp, if_false] at h
  cases hf : fs.find? (fun e => e.1 = p) with
  | none => rfl
  | some e => rw [hf] at h; exact Option.noConfusion h

theorem erase_insert_cancel (fs : Fs) (q : List String) (n : FNode)
    (h : fs.find? (fun e => e.1 = q) = none) : Fs.erase (Fs.insert fs q n) q = fs := by
  simp only [Fs.erase, Fs.insert, List.filter_cons]
  rw [if_neg (by simp)]
  exact List.filter_eq_self.mpr (by
    intro a ha
    have := List.find?_eq_none.mp h a ha
    simpa using this)

theorem noSymlinks_lookup (fs : Fs) (p : List String) (h : noSymlinks fs = true) (t : String) :
    ¬ Fs.lookup fs p = some (FNode.symlink t) := by
  intro hl
  by_cases hp : p = []
  · simp [Fs.lookup, hp] at hl
  · simp only [Fs.lookup, hp, if_false] at hl
    cases hf : fs.find? (fun e => e.1 = p) with
    | none => rw [hf] at hl; exact Option.noConfusion hl
    | some e =>
      rw [hf] at hl
      have hmem := List.mem_of_find?_eq_some hf
      have := List.all_eq_true.mp h e hmem
      injection hl with hl
      rw [hl] at this
      simp at this

theorem realpathAux_succ_eq (fs : Fs) (fuel : Nat) (cur : List String) (c : String)
    (rest : List String) :
    realpathAux fs (fuel + 1) cur (c :: rest) =
      (if c = "" || c = "." then realpathAux fs fuel cur rest
       else if c = ".." then realpathAux fs fuel cur.dropLast rest
       else
         match Fs.lookup fs (cur ++ [c]) with
         | none => Except.error FsErr.enoent
         | some (FNode.file _) =>
           if rest = [] then Except.ok (cur ++ [c]) else Except.error FsErr.notdir
         | some FNode.dir => realpathAux fs fuel (cur ++ [c]) rest
         | some (FNode.symlink t) =>
           realpathAux fs fuel (if strStartsWith t ("/") then [] else cur) (splitPath t ++ rest)) := rfl

theorem realpathAux_nil (fs : Fs) (fuel : Nat) (cur : List String) :
    realpathAux fs fuel cur [] = Except.ok cur := by
  cases fuel <;> rfl

theorem plainComp_spec (c : String) (h : plainComp c = true) :
    ¬ c = "" ∧ ¬ c = "." ∧ ¬ c = ".." := by
  simp [plainComp] at h
  tauto

/-- Traversal along a plain directory chain: `realpath` succeeds with
the identity exactly when the final node exists (and is not a
symlink). -/
theorem realpathAux_plain (fs : Fs) :
    ∀ (todo : List String) (fuel : Nat) (cur : List String),
      todo.length ≤ fuel →
      (∀ c ∈ todo, plainComp c = true) →
      allDirsAux fs cur todo.dropLast = true →
      (∀ t, ¬ Fs.lookup fs (cur ++ todo) = some (FNode.symlink t)) →
      ¬ todo = [] →
      realpathAux fs fuel cur todo =
        (match Fs.lookup fs (cur ++ todo) with
         | none => Except.error FsErr.enoent
         | some _ => Except.ok (cur ++ todo))
  | [], _, _, _, _, _, _, htodo => absurd rfl htodo
  | c :: rest, fuel, cur, hfuel, hplain, hdirs, hsym, _ => by
    obtain ⟨fuel', rfl⟩ : ∃ f, fuel = f + 1 := ⟨fuel - 1, by simp at hfuel; omega⟩
    obtain ⟨hc1, hc2, hc3⟩ := plainComp_spec c (hplain c (List.mem_cons_self c rest))
    rw [realpathAux_succ_eq]
    rw [if_neg (by simp [hc1, hc2]), if_neg hc3]
    cases rest with
    | nil =>
      cases hl : Fs.lookup fs (cur ++ [c]) with
      | none => rfl
      | some node =>
        cases node with
        | file s => simp
        | dir => rw [realpathAux_nil]
        | symlink t => exact absurd hl (hsym t)
    | cons c2 rest2 =>
      have hstep : Fs.lookup fs (cur ++ [c]) = some FNode.dir := by
        have : (c :: c2 :: rest2).dropLast = c :: (c2 :: rest2).dropLast := rfl
        rw [this] at hdirs
        simp only [allDirsAux, Bool.and_eq_true] at hdirs
        simpa using hdirs.1
      rw [hstep]
      have hrec := realpathAux_plain fs (c2 :: rest2) fuel' (cur ++ [c])
        (by simp at hfuel ⊢; omega)
        (fun x hx => hplain x (List.mem_cons_of_mem c hx))
        (by
          have : (c :: c2 :: rest2).dropLast = c :: (c2 :: rest2).dropLast := rfl
          rw [this] at hdirs
          simp only [allDirsAux, Bool.and_eq_true] at hdirs
          exact hdirs.2)
        (by
          intro t
          rw [List.append_assoc]
          exact hsym t)
        (by simp)
      rw [hrec, List.append_assoc]
      rfl

theorem realpath_plain (fs : Fs) (p : List String)
    (hplain : ∀ c ∈ p, plainComp c = true)
    (hdirs : allDirsAux fs [] p.dropLast = true)
    (hsym : ∀ t, ¬ Fs.lookup fs p = some (FNode.symlink t))
    (hp : ¬ p = []) :
    realpath fs p =
      (match Fs.lookup fs p with
       | none => Except.error FsErr.enoent
       | some _ => Except.ok p) := by
  unfold realpath
  have := realpathAux_plain fs p (realpathFuel p) []
    (by unfold realpathFuel; omega) hplain hdirs (by simpa using hsym) hp
  simpa using this

theorem realpath_plain_ok (fs : Fs) (p : List String) (n : FNode)
    (hplain : ∀ c ∈ p, plainComp c = true)
    (hdirs : allDirsAux fs [] p.dropLast = true)
    (hp : ¬ p = [])
    (hl : Fs.lookup fs p = some n)
    (hn : ∀ t, ¬ n = FNode.symlink t) :
    realpath fs p = Except.ok p := by
  rw [realpath_plain fs p hplain hdirs
    (by intro t hcontra; rw [hl] at hcontra; injection hcontra with hc; exact hn t hc) hp, hl]

theorem realpath_plain_enoent (fs : Fs) (p : List String)
    (hplain : ∀ c ∈ p, plainComp c = true)
    (hdirs : allDirsAux fs [] p.dropLast = true)
    (hp : ¬ p = [])
    (hl : Fs.lookup fs p = none) :
    realpath fs p = Except.error FsErr.enoent := by
  rw [realpath_plain fs p hplain hdirs (by intro t hcontra; rw [hl] at hcontra; exact Option.noConfusion hcontra) hp, hl]

theorem fileExists_plain (fs : Fs) (p : List String)
    (hplain : ∀ c ∈ p, plainComp c = true)
    (hdirs : allDirsAux fs [] p.dropLast = true)
    (hp : ¬ p = [])
    (hsym : ∀ t, ¬ Fs.lookup fs p = some (FNode.symlink t)) :
    fileExists fs p = (Fs.lookup fs p).isSome := by
  unfold fileExists
  rw [realpath_plain fs p hplain hdirs hsym hp]
  cases Fs.lookup fs p <;> rfl

/-- Chain monotonicity: a chain over `l₁ ++ l₂` restricts to `l₁`. -/
theorem allDirsAux_of_append (fs : Fs) :
    ∀ (l₁ l₂ cur : List String), allDirsAux fs cur (l₁ ++ l₂) = true →
      allDirsAux fs cur l₁ = true
  | [], _, _, _ => rfl
  | c :: l₁, l₂, cur, h => by
    simp only [List.cons_append, allDirsAux, Bool.and_eq_true] at h ⊢
    exact ⟨h.1, allDirsAux_of_append fs l₁ l₂ (cur ++ [c]) h.2⟩

/-- The endpoint of a non-empty chain is a directory. -/
theorem allDirsAux_last (fs : Fs) :
    ∀ (todo cur : List String), allDirsAux fs cur todo = true → ¬ todo = [] →
      Fs.lookup fs (cur ++ todo) = some FNode.dir
  | [], _, _, htodo => absurd rfl htodo
  | [c], cur, h, _ => by
    have hpair : (decide (Fs.lookup fs (cur ++ [c]) = some FNode.dir) &&
        allDirsAux fs (cur ++ [c]) []) = true := h
    exact of_decide_eq_true (Bool.and_eq_true _ _ ▸ hpair).1
  | c :: c2 :: rest, cur, h, _ => by
    have hpair : (decide (Fs.lookup fs (cur ++ [c]) = some FNode.dir) &&
        allDirsAux fs (cur ++ [c]) (c2 :: rest)) = true := h
    have := allDirsAux_last fs (c2 :: rest) (cur ++ [c]) (Bool.and_eq_true _ _ ▸ hpair).2 (by simp)
    rw [List.append_assoc] at this
    simpa using this

theorem allDirs_dropLast (fs : Fs) (p : List String) (h : allDirs fs p = true) :
    allDirs fs p.dropLast = true := by
  by_cases hp : p = []
  · subst hp; rfl
  · unfold allDirs at h ⊢
    have hsplit : p.dropLast ++ [p.getLast hp] = p := List.dropLast_append_getLast hp
    rw [hsplit.symm] at h
    exact allDirsAux_of_append fs p.dropLast [p.getLast hp] [] h

/-- Inserting an entry strictly longer than the whole chain does not
disturb the chain. -/
theorem allDirsAux_insert_longer (fs : Fs) (q : List String) (n : FNode) :
    ∀ (todo cur : List String), cur.length + todo.length < q.length →
      allDirsAux (Fs.insert fs q n) cur todo = allDirsAux fs cur todo
  | [], _, _ => rfl
  | c :: rest, cur, hlen => by
    simp only [allDirsAux]
    rw [lookup_insert_ne fs q n (cur ++ [c]) (by
      intro hcontra
      have : (cur ++ [c]).length = q.length := by rw [hcontra]
      simp at this
      simp at hlen
      omega)]
    rw [allDirsAux_insert_longer fs q n rest (cur ++ [c]) (by simp at hlen ⊢; omega)]

theorem mkdirRecAux_nil (fs : Fs) (fuel : Nat) (cur : List String) :
    mkdirRecAux fuel fs cur [] = (fs, none) := by
  cases fuel <;> rfl

theorem mkdirRecAux_succ_eq (fuel : Nat) (fs : Fs) (cur : List String) (c : String)
    (rest : List String) :
    mkdirRecAux (fuel + 1) fs cur (c :: rest) =
      (if c = "" || c = "." then mkdirRecAux fuel fs cur rest
       else if c = ".." then mkdirRecAux fuel fs cur.dropLast rest
       else
         match Fs.lookup fs (cur ++ [c]) with
         | none => mkdirRecAux fuel (Fs.insert fs (cur ++ [c]) FNode.dir) (cur ++ [c]) rest
         | some FNode.dir => mkdirRecAux fuel fs (cur ++ [c]) rest
         | some (FNode.file _) => (fs, some FsErr.notdir)
         | some (FNode.symlink t) =>
           mkdirRecAux fuel fs (if strStartsWith t ("/") then [] else cur) (splitPath t ++ rest)) := rfl

/-- `mkdir -p` over an existing plain directory chain is a no-op. -/
theorem mkdirRecAux_noop (fs : Fs) :
    ∀ (todo : List String) (fuel : Nat) (cur : List String),
      todo.length ≤ fuel →
      (∀ c ∈ todo, plainComp c = true) →
      allDirsAux fs cur todo = true →
      mkdirRecAux fuel fs cur todo = (fs, none)
  | [], fuel, cur, _, _, _ => mkdirRecAux_nil fs fuel cur
  | c :: rest, fuel, cur, hfuel, hplain, hdirs => by
    obtain ⟨fuel', rfl⟩ : ∃ f, fuel = f + 1 := ⟨fuel - 1, by simp at hfuel; omega⟩
    obtain ⟨hc1, hc2, hc3⟩ := plainComp_spec c (hplain c (List.mem_cons_self c rest))
    simp only [allDirsAux, Bool.and_eq_true] at hdirs
    rw [mkdirRecAux_succ_eq, if_neg (by simp [hc1, hc2]), if_neg hc3,
      show Fs.lookup fs (cur ++ [c]) = some FNode.dir from by simpa using hdirs.1]
    exact mkdirRecAux_noop fs rest fuel' (cur ++ [c]) (by simp at hfuel ⊢; omega)
      (fun x hx => hplain x (List.mem_cons_of_mem c hx)) hdirs.2

theorem mkdirRec_noop (fs : Fs) (p : List String)
    (hplain : ∀ c ∈ p, plainComp c = true) (hdirs : allDirs fs p = true) :
    mkdirRec fs p = (fs, none) := by
  unfold mkdirRec
  exact mkdirRecAux_noop fs p (realpathFuel p) [] (by unfold realpathFuel; omega) hplain hdirs

theorem writeFileAux_succ_eq (fuel : Nat) (fs : Fs) (p : List String) (content : String) :
    writeFileAux (fuel + 1) fs p content =
      (match p.getLast? with
       | none => Except.error FsErr.isdir
       | some base =>
         match realpath fs p.dropLast with
         | Except.error e => Except.error e
         | Except.ok parentReal =>
           match Fs.lookup fs parentReal with
           | some FNode.dir =>
             match Fs.lookup fs (parentReal ++ [base]) with
             | some (FNode.symlink t) =>
               writeFileAux fuel fs
                 (if strStartsWith t ("/") then resolveComps [] (splitPath t)
                  else resolveComps parentReal (splitPath t)) content
             | some FNode.dir => Except.error FsErr.isdir
             | _ => Except.ok (Fs.insert fs (parentReal ++ [base]) (FNode.file content))
           | _ => Except.error FsErr.notdir) := rfl

/-- `writeFile` over a plain path with an existing parent directory
and a target that is missing or a regular file inserts the file. -/
theorem writeFile_plain (fs : Fs) (p : List String) (content : String)
    (hp : ¬ p = [])
    (hplain : ∀ c ∈ p, plainComp c = true)
    (hdirs : allDirs fs p.dropLast = true)
    (htarget : Fs.lookup fs p = none ∨ ∃ s, Fs.lookup fs p = some (FNode.file s)) :
    writeFile fs p content = Except.ok (Fs.insert fs p (FNode.file content)) := by
  unfold writeFile
  rw [show (64 : Nat) = 63 + 1 from rfl, writeFileAux_succ_eq]
  rw [List.getLast?_eq_getLast p hp]
  have hsplit : p.dropLast ++ [p.getLast hp] = p := List.dropLast_append_getLast hp
  have hparent : realpath fs p.dropLast = Except.ok p.dropLast ∧
      Fs.lookup fs p.dropLast = some FNode.dir := by
    by_cases hdl : p.dropLast = []
    · rw [hdl]
      exact ⟨realpath_nil fs, by simp [Fs.lookup]⟩
    · have hlast := allDirsAux_last fs p.dropLast [] hdirs hdl
      simp only [List.nil_append] at hlast
      refine ⟨realpath_plain_ok fs p.dropLast FNode.dir ?_ ?_ hdl hlast (by intro t h; exact FNode.noConfusion h), hlast⟩
      · intro c hc
        exact hplain c (List.dropLast_subset p hc)
      · exact allDirs_dropLast fs p.dropLast hdirs
  dsimp only
  rw [hparent.1]
  dsimp only
  rw [hparent.2]
  dsimp only
  rw [hsplit]
  cases htarget with
  | inl hnone => rw [hnone]
  | inr hfile =>
    obtain ⟨s, hs⟩ := hfile
    rw [hs]

/-- `unlink` over a plain path removes a regular-file target. -/
theorem unlink_plain (fs : Fs) (p : List String) (s : String)
    (hp : ¬ p = [])
    (hplain : ∀ c ∈ p, plainComp c = true)
    (hdirs : allDirs fs p.dropLast = true)
    (htarget : Fs.lookup fs p = some (FNode.file s)) :
    unlink fs p = Except.ok (Fs.erase fs p) := by
  unfold unlink
  rw [List.getLast?_eq_getLast p hp]
  have hsplit : p.dropLast ++ [p.getLast hp] = p := List.dropLast_append_getLast hp
  have hparent : realpath fs p.dropLast = Except.ok p.dropLast := by
    by_cases hdl : p.dropLast = []
    · rw [hdl]; exact realpath_nil fs
    · have hlast := allDirsAux_last fs p.dropLast [] hdirs hdl
      simp only [List.nil_append] at hlast
      refine realpath_plain_ok fs p.dropLast FNode.dir ?_ ?_ hdl hlast (by intro t h; exact FNode.noConfusion h)
      · intro c hc
        exact hplain c (List.dropLast_subset p hc)
      · exact allDirs_dropLast fs p.dropLast hdirs
  dsimp only
  rw [hparent]
  dsimp only
  rw [hsplit, htarget]

theorem resolveComps_plain :
    ∀ (l cur : List String), (∀ c ∈ cur, plainComp c = true) →
      ∀ c ∈ resolveComps cur l, plainComp c = true
  | [], cur, hcur => hcur
  | c :: rest, cur, hcur => by
    show ∀ x ∈ resolveComps cur (c :: rest), plainComp x = true
    by_cases h1 : c = "" || c = "."
    · rw [show resolveComps cur (c :: rest) =
        (if c = "" || c = "." then resolveComps cur rest
         else if c = ".." then resolveComps cur.dropLast rest
         else resolveComps (cur ++ [c]) rest) from rfl, if_pos h1]
      exact resolveComps_plain rest cur hcur
    · by_cases h2 : c = ".."
      · rw [show resolveComps cur (c :: rest) =
          (if c = "" || c = "." then resolveComps cur rest
           else if c = ".." then resolveComps cur.dropLast rest
           else resolveComps (cur ++ [c]) rest) from rfl, if_neg h1, if_pos h2]
        exact resolveComps_plain rest cur.dropLast
          (fun x hx => hcur x (List.dropLast_subset cur hx))
      · rw [show resolveComps cur (c :: rest) =
          (if c = "" || c = "." then resolveComps cur rest
           else if c = ".." then resolveComps cur.dropLast rest
           else resolveComps (cur ++ [c]) rest) from rfl, if_neg h1, if_neg h2]
        refine resolveComps_plain rest (cur ++ [c]) ?_
        intro x hx
        rcases List.mem_append.mp hx with hx | hx
        · exact hcur x hx
        · have : x = c := by simpa using hx
          subst this
          simp only [plainComp]
          simp at h1
          simp [h1.1, h1.2, h2]

/-- Inversion of a successful `resolveSandboxPath`. -/
theorem resolveSandboxPath_inv (fs : Fs) (root : List String) (input : String)
    (r : ResolvedPath) (h : resolveSandboxPath fs root input = Except.ok r) :
    assertRelativeSafe input = Except.ok () ∧
    realpath fs root = Except.ok r.root ∧
    r.absolutePath = resolveComps r.root (splitPath input) ∧
    ensureWithin r.root r.absolutePath = Except.ok () ∧
    r.relativePath = joinSlash (relComps r.root r.absolutePath) := by
  unfold resolveSandboxPath at h
  split at h
  · exact absurd h (by simp)
  · rename_i u hsafe
    split at h
    · exact absurd h (by simp)
    · rename_i rootReal hroot
      dsimp only at h
      split at h
      · exact absurd h (by simp)
      · split at h
        · exact absurd h (by simp)
        · rename_i u2 hlex
          injection h with h
          subst h
          dsimp only
          exact ⟨by rw [hsafe], hroot, rfl, by
            cases u2
            exact hlex, rfl⟩

/-- Forward construction of a successful `resolveSandboxPath` when the
lexically resolved path exists with itself as realpath. -/
theorem resolveSandboxPath_of_ok (fs : Fs) (root : List String) (input : String)
    (rootReal target : List String)
    (hsafe : assertRelativeSafe input = Except.ok ())
    (hroot : realpath fs root = Except.ok rootReal)
    (hres : resolveComps rootReal (splitPath input) = target)
    (hrp : realpath fs target = Except.ok target)
    (hens : ensureWithin rootReal target = Except.ok ()) :
    resolveSandboxPath fs root input =
      Except.ok { root := rootReal, absolutePath := target,
                  relativePath := joinSlash (relComps rootReal target) } := by
  unfold resolveSandboxPath
  rw [hsafe, hroot]
  dsimp only
  rw [hres, hrp]
  dsimp only
  rw [hens]

theorem applyOps_nil_eq (rootReal : List String) (total : Nat) (fs : Fs) (changed : List String) :
    applyOps rootReal total fs [] changed =
      (fs, Except.ok { applied := true,
                       summary := "Applied " ++ toString total ++ " operation(s)",
                       changedFiles := changed }) := rfl

theorem applyOps_cons_add (rootReal : List String) (total : Nat) (fs fs1 fs2 : Fs)
    (p0 : String) (co : Option String) (rest : List PatchOp) (changed : List String)
    (r : ResolvedPath)
    (hres : resolveSandboxPath fs rootReal p0 = Except.ok r)
    (hex : fileExists fs r.absolutePath = false)
    (hmk : mkdirRec fs r.absolutePath.dropLast = (fs1, none))
    (hwf : writeFile fs1 r.absolutePath (co.getD "") = Except.ok fs2) :
    applyOps rootReal total fs ({ type := OpType.add, path := p0, content := co } :: rest) changed =
      applyOps rootReal total fs2 rest (changed ++ [r.relativePath]) := by
  conv_lhs => rw [applyOps.eq_def]
  dsimp only
  rw [hres]
  dsimp only
  rw [hex, if_neg (by decide)]
  rw [hmk]
  dsimp only
  rw [hwf]

theorem applyOps_cons_add_exists (rootReal : List String) (total : Nat) (fs : Fs)
    (p0 : String) (co : Option String) (rest : List PatchOp) (changed : List String)
    (r : ResolvedPath)
    (hres : resolveSandboxPath fs rootReal p0 = Except.ok r)
    (hex : fileExists fs r.absolutePath = true) :
    applyOps rootReal total fs ({ type := OpType.add, path := p0, content := co } :: rest) changed =
      (fs, Except.ok { applied := false,
                       summary := "Add failed, file exists: " ++ r.relativePath,
                       changedFiles := changed }) := by
  conv_lhs => rw [applyOps.eq_def]
  dsimp only
  rw [hres]
  dsimp only
  rw [hex, if_pos (by decide)]

theorem applyOps_cons_update_missing (rootReal : List String) (total : Nat) (fs : Fs)
    (p0 : String) (co : Option String) (rest : List PatchOp) (changed : List String)
    (r : ResolvedPath)
    (hres : resolveSandboxPath fs rootReal p0 = Except.ok r)
    (hex : fileExists fs r.absolutePath = false) :
    applyOps rootReal total fs ({ type := OpType.update, path := p0, content := co } :: rest) changed =
      (fs, Except.ok { applied := false,
                       summary := "Update failed, file missing: " ++ r.relativePath,
                       changedFiles := changed }) := by
  conv_lhs => rw [applyOps.eq_def]
  dsimp only
  rw [hres]
  dsimp only
  rw [hex, if_pos (by decide)]

theorem applyOps_cons_delete_missing (rootReal : List String) (total : Nat) (fs : Fs)
    (p0 : String) (rest : List PatchOp) (changed : List String)
    (r : ResolvedPath)
    (hres : resolveSandboxPath fs rootReal p0 = Except.ok r)
    (hex : fileExists fs r.absolutePath = false) :
    applyOps rootReal total fs ({ type := OpType.delete, path := p0, content := none } :: rest) changed =
      (fs, Except.ok { applied := false,
                       summary := "Delete failed, file missing: " ++ r.relativePath,
                       changedFiles := changed }) := by
  conv_lhs => rw [applyOps.eq_def]
  dsimp only
  rw [hres]
  dsimp only
  rw [hex, if_pos (by decide)]

theorem applyOps_cons_delete (rootReal : List String) (total : Nat) (fs fs1 : Fs)
    (p0 : String) (rest : List PatchOp) (changed : List String)
    (r : ResolvedPath)
    (hres : resolveSandboxPath fs rootReal p0 = Except.ok r)
    (hex : fileExists fs r.absolutePath = true)
    (hun : unlink fs r.absolutePath = Except.ok fs1) :
    applyOps rootReal total fs ({ type := OpType.delete, path := p0, content := none } :: rest) changed =
      applyOps rootReal total fs1 rest (changed ++ [r.relativePath]) := by
  conv_lhs => rw [applyOps.eq_def]
  dsimp only
  rw [hres]
  dsimp only
  rw [hex, if_neg (by decide)]
  rw [hun]

/-- Workspace with only the root directory, used by the patch
counterexample and witnesses. -/
def fsOnlyRoot : Fs := [(["ws"], FNode.dir)]

/-- The envelope patch adding and then deleting `d/x.txt`. -/
def patchAddDeleteNested : String :=
  "*** Begin Patch\n*** Add File: d/x.txt\nhi\n*** Delete File: d/x.txt\n*** End Patch"

/-- C7, counterexample to the claim as stated.  Applying the envelope
patch `Add d/x.txt` then `Delete d/x.txt` (no intervening write) to a
workspace holding only the root succeeds, but does not return the
workspace to its prior state: `Add` created the ancestor directory
`d`, and `Delete` only unlinks the file, so `d` remains. -/
theorem c7_patch_roundtrip_counterexample :
    (applySimplePatch fsOnlyRoot ["ws"] patchAddDeleteNested).2 =
      Except.ok { applied := true, summary := "Applied 2 operation(s)",
                  changedFiles := ["d/x.txt", "d/x.txt"] } ∧
    Fs.lookup (applySimplePatch fsOnlyRoot ["ws"] patchAddDeleteNested).1 ["ws", "d"] =
      some FNode.dir ∧
    Fs.lookup fsOnlyRoot ["ws", "d"] = none := by
  refine ⟨rfl, rfl, rfl⟩

/-- C7, amended.  `Add` of `p` followed by `Delete` of `p` with no
intervening write returns the workspace to exactly its prior state
provided the ancestor directories of the target already exist (`Add`
then creates nothing but the file itself).  Stated over `applyOps`,
the operation loop of `applySimplePatch`, for an arbitrary workspace
whose root is a plain directory chain. -/
theorem c7_patch_roundtrip (fs : Fs) (rootReal : List String) (p c : String)
    (r : ResolvedPath) (total : Nat) (changed : List String)
    (hres : resolveSandboxPath fs rootReal p = Except.ok r)
    (hrootplain : ∀ x ∈ rootReal, plainComp x = true)
    (hrootdirs : allDirs fs rootReal = true)
    (hmissing : Fs.lookup fs r.absolutePath = none)
    (hnotroot : ¬ r.absolutePath = rootReal)
    (hparent : allDirs fs r.absolutePath.dropLast = true) :
    applyOps rootReal total fs
      [{ type := OpType.add, path := p, content := some c },
       { type := OpType.delete, path := p, content := none }] changed =
      (fs, Except.ok { applied := true,
                       summary := "Applied " ++ toString total ++ " operation(s)",
                       changedFiles := (changed ++ [r.relativePath]) ++ [r.relativePath] }) := by
  obtain ⟨rroot, rabs, rrel⟩ := r
  obtain ⟨hsafe, hroot', habs, hens, hrel⟩ :=
    resolveSandboxPath_inv fs rootReal p ⟨rroot, rabs, rrel⟩ hres
  dsimp only at hsafe hroot' habs hens hrel hmissing hnotroot hparent ⊢
  have hrootrp : realpath fs rootReal = Except.ok rootReal := by
    by_cases hr0 : rootReal = []
    · rw [hr0]; exact realpath_nil fs
    · exact realpath_plain_ok fs rootReal FNode.dir hrootplain
        (allDirs_dropLast fs rootReal hrootdirs) hr0
        (by simpa using allDirsAux_last fs rootReal [] hrootdirs hr0)
        (fun t h => FNode.noConfusion h)
  have hrr : rroot = rootReal := by
    rw [hrootrp] at hroot'
    injection hroot' with h
    exact h.symm
  subst hrr
  have hplainabs : ∀ x ∈ rabs, plainComp x = true := by
    rw [habs]
    exact resolveComps_plain (splitPath p) rroot hrootplain
  have hwithin : rroot <+: rabs :=
    List.isPrefixOf_iff_prefix.mp (ensureWithin_ok_isWithin rroot rabs hens)
  have habsne : ¬ rabs = [] := by
    intro h0
    rw [h0] at hwithin
    rw [List.prefix_nil.mp hwithin] at hnotroot
    exact hnotroot h0
  have hlenlt : rroot.length < rabs.length := by
    rcases Nat.lt_or_ge rroot.length rabs.length with h | h
    · exact h
    · exfalso
      have hle := hwithin.length_le
      have heq : rroot.length = rabs.length := by omega
      exact hnotroot (hwithin.eq_of_length heq).symm
  -- the Add step
  have hex : fileExists fs rabs = false := by
    rw [fileExists_plain fs rabs hplainabs hparent habsne
      (by intro t hcontra; rw [hmissing] at hcontra; exact Option.noConfusion hcontra)]
    rw [hmissing]
    rfl
  have hmk : mkdirRec fs rabs.dropLast = (fs, none) :=
    mkdirRec_noop fs rabs.dropLast
      (fun x hx => hplainabs x (List.dropLast_subset rabs hx)) hparent
  have hwf : writeFile fs rabs ((some c).getD "") = Except.ok (Fs.insert fs rabs (FNode.file c)) := by
    show writeFile fs rabs c = _
    exact writeFile_plain fs rabs c habsne hplainabs hparent (Or.inl hmissing)
  rw [applyOps_cons_add rroot total fs fs (Fs.insert fs rabs (FNode.file c)) p (some c) _ changed
    ⟨rroot, rabs, rrel⟩ hres hex hmk hwf]
  -- facts about the filesystem after the Add
  have hdirs1 : allDirsAux (Fs.insert fs rabs (FNode.file c)) [] rabs.dropLast = true := by
    rw [show allDirsAux (Fs.insert fs rabs (FNode.file c)) [] rabs.dropLast =
        allDirsAux fs [] rabs.dropLast from
      allDirsAux_insert_longer fs rabs (FNode.file c) rabs.dropLast [] (by
        have := List.length_dropLast rabs
        have : 0 < rabs.length := List.length_pos.mpr habsne
        simp [List.length_dropLast]
        omega)]
    exact hparent
  have hlook1 : Fs.lookup (Fs.insert fs rabs (FNode.file c)) rabs = some (FNode.file c) :=
    lookup_insert_self fs rabs (FNode.file c) habsne
  have hrootdirs1 : allDirs (Fs.insert fs rabs (FNode.file c)) rroot = true := by
    show allDirsAux (Fs.insert fs rabs (FNode.file c)) [] rroot = true
    rw [show allDirsAux (Fs.insert fs rabs (FNode.file c)) [] rroot =
        allDirsAux fs [] rroot from
      allDirsAux_insert_longer fs rabs (FNode.file c) rroot [] (by simpa using hlenlt)]
    exact hrootdirs
  have hrootrp1 : realpath (Fs.insert fs rabs (FNode.file c)) rroot = Except.ok rroot := by
    by_cases hr0 : rroot = []
    · rw [hr0]; exact realpath_nil _
    · exact realpath_plain_ok _ rroot FNode.dir hrootplain
        (allDirs_dropLast _ rroot hrootdirs1) hr0
        (by simpa using allDirsAux_last _ rroot [] hrootdirs1 hr0)
        (fun t h => FNode.noConfusion h)
  have hrp1 : realpath (Fs.insert fs rabs (FNode.file c)) rabs = Except.ok rabs :=
    realpath_plain_ok _ rabs (FNode.file c) hplainabs hdirs1 habsne hlook1
      (fun t h => FNode.noConfusion h)
  -- the Delete step resolves to the same record
  have hres1 : resolveSandboxPath (Fs.insert fs rabs (FNode.file c)) rroot p =
      Except.ok ⟨rroot, rabs, rrel⟩ := by
    have := resolveSandboxPath_of_ok (Fs.insert fs rabs (FNode.file c)) rroot p rroot rabs
      hsafe hrootrp1 habs.symm hrp1 hens
    rw [this, hrel]
  have hex1 : fileExists (Fs.insert fs rabs (FNode.file c)) rabs = true := by
    rw [fileExists_plain _ rabs hplainabs hdirs1 habsne
      (by intro t hcontra; rw [hlook1] at hcontra; injection hcontra with h; exact FNode.noConfusion h)]
    rw [hlook1]
    rfl
  have hun : unlink (Fs.insert fs rabs (FNode.file c)) rabs =
      Except.ok (Fs.erase (Fs.insert fs rabs (FNode.file c)) rabs) :=
    unlink_plain _ rabs c habsne hplainabs hdirs1 hlook1
  rw [applyOps_cons_delete rroot total (Fs.insert fs rabs (FNode.file c))
    (Fs.erase (Fs.insert fs rabs (FNode.file c)) rabs) p [] (changed ++ [rrel])
    ⟨rroot, rabs, rrel⟩ hres1 hex1 hun]
  rw [erase_insert_cancel fs rabs (FNode.file c) (lookup_none_find_none fs rabs habsne hmissing)]
  exact applyOps_nil_eq rroot total fs ((changed ++ [rrel]) ++ [rrel])

/-- C7 witness: the amended round trip on the concrete workspace
holding only the root, adding and deleting `x.txt`. -/
theorem c7_patch_roundtrip_witness :
    resolveSandboxPath fsOnlyRoot ["ws"] ("x.txt") =
      Except.ok { root := ["ws"], absolutePath := ["ws", "x.txt"], relativePath := "x.txt" } ∧
    applyOps ["ws"] 2 fsOnlyRoot
      [{ type := OpType.add, path := "x.txt", content := some "hi" },
       { type := OpType.delete, path := "x.txt", content := none }] [] =
      (fsOnlyRoot, Except.ok { applied := true, summary := "Applied 2 operation(s)",
                               changedFiles := (([] : List String) ++ ["x.txt"]) ++ ["x.txt"] }) :=
  ⟨by rfl,
    c7_patch_roundtrip fsOnlyRoot ["ws"] ("x.txt") ("hi")
      { root := ["ws"], absolutePath := ["ws", "x.txt"], relativePath := "x.txt" } 2 []
      (by rfl) (by decide) (by decide) (by rfl) (by decide) (by decide)⟩

/-- One step of the unrecognized-directive branch of
`parseSimplePatch`: a non-blank line that is no directive throws. -/
theorem parseOpsAux_badline (fuel : Nat) (line : String) (rest : List String)
    (h1 : ¬ jsTrim line = "")
    (h2 : ¬ strStartsWith line ("*** End Patch") = true)
    (h3 : ¬ strStartsWith line ("*** Add File:") = true)
    (h4 : ¬ strStartsWith line ("*** Update File:") = true)
    (h5 : ¬ strStartsWith line ("*** Delete File:") = true) :
    parseOpsAux (fuel + 1) (line :: rest) = Except.error (Err.badLine line) := by
  conv_lhs => rw [parseOpsAux.eq_def]
  dsimp only
  rw [if_neg h1, if_neg h2, if_neg h3, if_neg h4, if_neg h5]

/-- The workspace of scenario S3: the root and `a.txt` = `"hello"`. -/
def fsScenarioS3 : Fs := [(["ws"], FNode.dir), (["ws", "a.txt"], FNode.file "hello")]

/-- The envelope patch of scenario S3. -/
def patchS3 : String :=
  "*** Begin Patch\n*** Update File: a.txt\nhello world\n*** Add File: b.txt\nnew file\n*** Delete File: a.txt\n*** End Patch"

/-- C4.  The envelope patch engine: scenario S3 (update `a.txt`, add
`b.txt`, delete `a.txt` on a workspace where `a.txt` = `"hello"`)
returns `applied = true`, leaves `b.txt` = `"new file"` and removes
`a.txt`; and in general an `Add` whose target exists fails, `Update`
and `Delete` whose targets are missing fail (each returning
`applied = false` without touching the filesystem), and an
unrecognized directive line makes the patch fail
(`parseSimplePatch` throws `Unrecognized patch line`, which
`applySimplePatch` propagates). -/
theorem c4_envelope_patch :
    ((applySimplePatch fsScenarioS3 ["ws"] patchS3).2 =
        Except.ok { applied := true, summary := "Applied 3 operation(s)",
                    changedFiles := ["a.txt", "b.txt", "a.txt"] } ∧
      Fs.lookup (applySimplePatch fsScenarioS3 ["ws"] patchS3).1 ["ws", "b.txt"] =
        some (FNode.file "new file") ∧
      Fs.lookup (applySimplePatch fsScenarioS3 ["ws"] patchS3).1 ["ws", "a.txt"] = none) ∧
    (∀ (rootReal : List String) (total : Nat) (fs : Fs) (p0 : String) (co : Option String)
        (rest : List PatchOp) (changed : List String) (r : ResolvedPath),
      resolveSandboxPath fs rootReal p0 = Except.ok r →
      fileExists fs r.absolutePath = true →
      applyOps rootReal total fs ({ type := OpType.add, path := p0, content := co } :: rest) changed =
        (fs, Except.ok { applied := false,
                         summary := "Add failed, file exists: " ++ r.relativePath,
                         changedFiles := changed })) ∧
    (∀ (rootReal : List String) (total : Nat) (fs : Fs) (p0 : String) (co : Option String)
        (rest : List PatchOp) (changed : List String) (r : ResolvedPath),
      resolveSandboxPath fs rootReal p0 = Except.ok r →
      fileExists fs r.absolutePath = false →
      applyOps rootReal total fs ({ type := OpType.update, path := p0, content := co } :: rest) changed =
        (fs, Except.ok { applied := false,
                         summary := "Update failed, file missing: " ++ r.relativePath,
                         changedFiles := changed })) ∧
    (∀ (rootReal : List String) (total : Nat) (fs : Fs) (p0 : String)
        (rest : List PatchOp) (changed : List String) (r : ResolvedPath),
      resolveSandboxPath fs rootReal p0 = Except.ok r →
      fileExists fs r.absolutePath = false →
      applyOps rootReal total fs ({ type := OpType.delete, path := p0, content := none } :: rest) changed =
        (fs, Except.ok { applied := false,
                         summary := "Delete failed, file missing: " ++ r.relativePath,
                         changedFiles := changed })) ∧
    (∀ (fuel : Nat) (line : String) (rest : List String),
      ¬ jsTrim line = "" →
      ¬ strStartsWith line ("*** End Patch") = true →
      ¬ strStartsWith line ("*** Add File:") = true →
      ¬ strStartsWith line ("*** Update File:") = true →
      ¬ strStartsWith line ("*** Delete File:") = true →
      parseOpsAux (fuel + 1) (line :: rest) = Except.error (Err.badLine line)) ∧
    (∀ (fs : Fs) (rootReal : List String) (patch : String) (e : Err),
      parseSimplePatch patch = Except.error e →
      applySimplePatch fs rootReal patch = (fs, Except.error e)) := by
  refine ⟨⟨rfl, rfl, rfl⟩, ?_, ?_, ?_, ?_, ?_⟩
  · intro rootReal total fs p0 co rest changed r hres hex
    exact applyOps_cons_add_exists rootReal total fs p0 co rest changed r hres hex
  · intro rootReal total fs p0 co rest changed r hres hex
    exact applyOps_cons_update_missing rootReal total fs p0 co rest changed r hres hex
  · intro rootReal total fs p0 rest changed r hres hex
    exact applyOps_cons_delete_missing rootReal total fs p0 rest changed r hres hex
  · intro fuel line rest h1 h2 h3 h4 h5
    exact parseOpsAux_badline fuel line rest h1 h2 h3 h4 h5
  · intro fs rootReal patch e hparse
    unfold applySimplePatch
    rw [hparse]

/-- C4 witness: the general conjuncts at concrete inputs — adding
`a.txt` (which exists) to the S3 workspace fails with the exact
summary, and the directive line `*** Rename File: a` makes the parse
throw. -/
theorem c4_envelope_patch_witness :
    applyOps ["ws"] 1 fsScenarioS3
        [{ type := OpType.add, path := "a.txt", content := some "x" }] [] =
      (fsScenarioS3, Except.ok { applied := false,
                                 summary := "Add failed, file exists: a.txt",
                                 changedFiles := [] }) ∧
    parseOpsAux 3 ["*** Rename File: a"] =
      Except.error (Err.badLine ("*** Rename File: a")) :=
  ⟨c4_envelope_patch.2.1 ["ws"] 1 fsScenarioS3 ("a.txt") (some "x") [] []
      { root := ["ws"], absolutePath := ["ws", "a.txt"], relativePath := "a.txt" }
      (by rfl) (by rfl),
    c4_envelope_patch.2.2.2.2.1 2 ("*** Rename File: a") [] (by decide) (by decide)
      (by decide) (by decide) (by decide)⟩

theorem noSymlinks_insert_dir (fs : Fs) (q : List String)
    (h : noSymlinks fs = true) : noSymlinks (Fs.insert fs q FNode.dir) = true := by
  show (true && noSymlinks fs) = true
  rw [Bool.true_and]
  exact h

/-- `mkdir -p` never disturbs an existing entry (it only inserts
directories where the lookup was `none`). -/
theorem mkdirRecAux_preserves :
    ∀ (fuel : Nat) (todo : List String) (fs : Fs) (cur : List String) (fs' : Fs)
      (e : Option FsErr),
      mkdirRecAux fuel fs cur todo = (fs', e) →
      ∀ q n, Fs.lookup fs q = some n → Fs.lookup fs' q = some n
  | fuel, [], fs, cur, fs', e, h => by
    rw [mkdirRecAux_nil] at h
    injection h with h1 h2
    subst h1
    exact fun q n hq => hq
  | 0, c :: rest, fs, cur, fs', e, h => by
    have : (fs, some FsErr.eloop) = (fs', e) := h
    injection this with h1 h2
    subst h1
    exact fun q n hq => hq
  | Nat.succ fuel, c :: rest, fs, cur, fs', e, h => by
    rw [mkdirRecAux_succ_eq] at h
    by_cases hc1 : c = "" || c = "."
    · rw [if_pos hc1] at h
      exact mkdirRecAux_preserves fuel rest fs cur fs' e h
    · rw [if_neg hc1] at h
      by_cases hc2 : c = ".."
      · rw [if_pos hc2] at h
        exact mkdirRecAux_preserves fuel rest fs cur.dropLast fs' e h
      · rw [if_neg hc2] at h
        cases hl : Fs.lookup fs (cur ++ [c]) with
        | none =>
          rw [hl] at h
          intro q n hq
          have hqne : ¬ q = cur ++ [c] := by
            intro hcontra
            rw [hcontra, hl] at hq
            exact Option.noConfusion hq
          exact mkdirRecAux_preserves fuel rest (Fs.insert fs (cur ++ [c]) FNode.dir)
            (cur ++ [c]) fs' e h q n
            (by rw [lookup_insert_ne fs (cur ++ [c]) FNode.dir q hqne]; exact hq)
        | some node =>
          rw [hl] at h
          cases node with
          | dir => exact mkdirRecAux_preserves fuel rest fs (cur ++ [c]) fs' e h
          | file s =>
            injection h with h1 h2
            subst h1
            exact fun q n hq => hq
          | symlink t =>
            exact mkdirRecAux_preserves fuel (splitPath t ++ rest) fs
              (if strStartsWith t ("/") then [] else cur) fs' e h

/-- Specification of a successful `mkdir -p` over plain components in
a symlink-free filesystem: lookups change only on the new chain (from
`none` to a directory), the whole chain afterwards consists of
directories, and no symlink appears. -/
theorem mkdirRecAux_plain :
    ∀ (todo : List String) (fuel : Nat) (fs : Fs) (cur : List String) (fs' : Fs),
      todo.length ≤ fuel →
      (∀ c ∈ todo, plainComp c = true) →
      noSymlinks fs = true →
      mkdirRecAux fuel fs cur todo = (fs', none) →
      (∀ q, Fs.lookup fs' q = Fs.lookup fs q ∨
        (Fs.lookup fs q = none ∧ Fs.lookup fs' q = some FNode.dir ∧
          ¬ q = cur ∧ cur <+: q ∧ q <+: cur ++ todo)) ∧
      allDirsAux fs' cur todo = true ∧
      noSymlinks fs' = true
  | [], fuel, fs, cur, fs', _, _, hnosym, h => by
    rw [mkdirRecAux_nil] at h
    injection h with h1 h2
    subst h1
    exact ⟨fun q => Or.inl rfl, rfl, hnosym⟩
  | c :: rest, fuel, fs, cur, fs', hfuel, hplain, hnosym, h => by
    obtain ⟨fuel', rfl⟩ : ∃ f, fuel = f + 1 := ⟨fuel - 1, by simp at hfuel; omega⟩
    obtain ⟨hc1, hc2, hc3⟩ := plainComp_spec c (hplain c (List.mem_cons_self c rest))
    rw [mkdirRecAux_succ_eq, if_neg (by simp [hc1, hc2]), if_neg hc3] at h
    have hstep : cur ++ [c] <+: cur ++ (c :: rest) := by
      rw [show cur ++ (c :: rest) = (cur ++ [c]) ++ rest from by simp]
      exact List.prefix_append (cur ++ [c]) rest
    have hcne : ¬ (cur ++ [c]) = cur := by
      intro hcontra
      have : (cur ++ [c]).length = cur.length := by rw [hcontra]
      simp at this
    cases hl : Fs.lookup fs (cur ++ [c]) with
    | none =>
      rw [hl] at h
      obtain ⟨ihA, ihB, ihC⟩ := mkdirRecAux_plain rest fuel'
        (Fs.insert fs (cur ++ [c]) FNode.dir) (cur ++ [c]) fs'
        (by simp at hfuel ⊢; omega)
        (fun x hx => hplain x (List.mem_cons_of_mem c hx))
        (noSymlinks_insert_dir fs (cur ++ [c]) hnosym) h
      have hcdir : Fs.lookup fs' (cur ++ [c]) = some FNode.dir := by
        rcases ihA (cur ++ [c]) with hA | hA
        · rw [hA]
          exact lookup_insert_self fs (cur ++ [c]) FNode.dir (by simp)
        · exact hA.2.1
      refine ⟨?_, ?_, ihC⟩
      · intro q
        by_cases hq : q = cur ++ [c]
        · subst hq
          exact Or.inr ⟨hl, hcdir, hcne, List.prefix_append cur [c], hstep⟩
        · rcases ihA q with hA | hA
          · rw [lookup_insert_ne fs (cur ++ [c]) FNode.dir q hq] at hA
            exact Or.inl hA
          · refine Or.inr ⟨?_, hA.2.1, ?_, ?_, ?_⟩
            · rw [lookup_insert_ne fs (cur ++ [c]) FNode.dir q hq] at hA
              exact hA.1
            · intro hcontra
              subst hcontra
              have hle := hA.2.2.2.1.length_le
              simp at hle
            · exact (List.prefix_append cur [c]).trans hA.2.2.2.1
            · have := hA.2.2.2.2
              rw [show (cur ++ [c]) ++ rest = cur ++ (c :: rest) from by simp] at this
              exact this
      · show (decide (Fs.lookup fs' (cur ++ [c]) = some FNode.dir) &&
          allDirsAux fs' (cur ++ [c]) rest) = true
        rw [Bool.and_eq_true]
        exact ⟨by simp [hcdir], ihB⟩
    | some node =>
      rw [hl] at h
      cases node with
      | dir =>
        obtain ⟨ihA, ihB, ihC⟩ := mkdirRecAux_plain rest fuel' fs (cur ++ [c]) fs'
          (by simp at hfuel ⊢; omega)
          (fun x hx => hplain x (List.mem_cons_of_mem c hx)) hnosym h
        have hcdir : Fs.lookup fs' (cur ++ [c]) = some FNode.dir := by
          rcases ihA (cur ++ [c]) with hA | hA
          · rw [hA]; exact hl
          · exact hA.2.1
        refine ⟨?_, ?_, ihC⟩
        · intro q
          rcases ihA q with hA | hA
          · exact Or.inl hA
          · refine Or.inr ⟨hA.1, hA.2.1, ?_, ?_, ?_⟩
            · intro hcontra
              subst hcontra
              have hle := hA.2.2.2.1.length_le
              simp at hle
            · exact (List.prefix_append cur [c]).trans hA.2.2.2.1
            · have := hA.2.2.2.2
              rw [show (cur ++ [c]) ++ rest = cur ++ (c :: rest) from by simp] at this
              exact this
        · show (decide (Fs.lookup fs' (cur ++ [c]) = some FNode.dir) &&
            allDirsAux fs' (cur ++ [c]) rest) = true
          rw [Bool.and_eq_true]
          exact ⟨by simp [hcdir], ihB⟩
      | file s =>
        dsimp only at h
        injection h with h1 h2
        exact Option.noConfusion h2
      | symlink t => exact absurd hl (noSymlinks_lookup fs (cur ++ [c]) hnosym t)

theorem ensureWorkspaceRoot_inv (fs : Fs) (root : List String) (fs1 : Fs)
    (rootReal : List String)
    (h : ensureWorkspaceRoot fs root = (fs1, Except.ok rootReal)) :
    mkdirRec fs root = (fs1, none) ∧ realpath fs1 root = Except.ok rootReal := by
  unfold ensureWorkspaceRoot at h
  rcases hmk : mkdirRec fs root with ⟨fs2, e⟩
  rw [hmk] at h
  cases e with
  | some err =>
    dsimp only at h
    injection h with h1 h2
    exact absurd h2 (by simp)
  | none =>
    dsimp only at h
    injection h with h1 h2
    subst h1
    exact ⟨rfl, h2⟩

/-- In a symlink-free filesystem a plain path whose final lookup is
`none` does not exist for `fs.access`. -/
theorem realpathAux_missing (fs : Fs) (hnosym : noSymlinks fs = true) :
    ∀ (todo : List String) (fuel : Nat) (cur : List String),
      (∀ c ∈ todo, plainComp c = true) →
      Fs.lookup fs (cur ++ todo) = none →
      ¬ todo = [] →
      ∃ e, realpathAux fs fuel cur todo = Except.error e
  | [], _, _, _, _, htodo => absurd rfl htodo
  | c :: rest, fuel, cur, hplain, hmiss, _ => by
    cases fuel with
    | zero => exact ⟨FsErr.eloop, rfl⟩
    | succ fuel' =>
      obtain ⟨hc1, hc2, hc3⟩ := plainComp_spec c (hplain c (List.mem_cons_self c rest))
      rw [realpathAux_succ_eq, if_neg (by simp [hc1, hc2]), if_neg hc3]
      cases hl : Fs.lookup fs (cur ++ [c]) with
      | none => exact ⟨FsErr.enoent, rfl⟩
      | some node =>
        cases node with
        | file s =>
          cases rest with
          | nil =>
            exfalso
            rw [hl] at hmiss
            exact Option.noConfusion hmiss
          | cons c2 rest2 => exact ⟨FsErr.notdir, by simp⟩
        | dir =>
          cases rest with
          | nil =>
            exfalso
            rw [hl] at hmiss
            exact Option.noConfusion hmiss
          | cons c2 rest2 =>
            have := realpathAux_missing fs hnosym (c2 :: rest2) fuel' (cur ++ [c])
              (fun x hx => hplain x (List.mem_cons_of_mem c hx))
              (by simpa using hmiss)
              (by simp)
            simpa using this
        | symlink t => exact absurd hl (noSymlinks_lookup fs (cur ++ [c]) hnosym t)

theorem fileExists_missing (fs : Fs) (p : List String)
    (hnosym : noSymlinks fs = true)
    (hplain : ∀ c ∈ p, plainComp c = true)
    (hmiss : Fs.lookup fs p = none)
    (hp : ¬ p = []) :
    fileExists fs p = false := by
  unfold fileExists realpath
  obtain ⟨e, he⟩ := realpathAux_missing fs hnosym p (realpathFuel p) [] hplain
    (by simpa using hmiss) hp
  rw [he]

/-- C6.  `fsWrite` semantics.  (i) Writing to an existing file with
`overwrite = false` throws `File already exists` without mutating any
existing entry (the only effect of the call is `ensureWorkspaceRoot`
creating missing root directories, which preserves every existing
entry).  (ii) With `overwrite = true` the file content is replaced by
the new content.  (iii) When the target is missing, the missing
ancestor directories of the target are created (every non-empty
prefix of the parent is a directory afterwards) and the file is
written. -/
theorem c6_fswrite_overwrite_semantics :
    (∀ (fs fs1 : Fs) (root rootReal : List String) (input content : String) (r : ResolvedPath),
      ensureWorkspaceRoot fs root = (fs1, Except.ok rootReal) →
      resolveSandboxPath fs1 rootReal input = Except.ok r →
      fileExists fs1 r.absolutePath = true →
      fsWrite fs root input content false =
        (fs1, Except.error (Err.alreadyExists r.relativePath)) ∧
      (∀ q n, Fs.lookup fs q = some n → Fs.lookup fs1 q = some n)) ∧
    (∀ (fs fs1 : Fs) (root rootReal : List String) (input content old : String)
        (r : ResolvedPath),
      ensureWorkspaceRoot fs root = (fs1, Except.ok rootReal) →
      resolveSandboxPath fs1 rootReal input = Except.ok r →
      (∀ x ∈ r.absolutePath, plainComp x = true) →
      allDirs fs1 r.absolutePath.dropLast = true →
      Fs.lookup fs1 r.absolutePath = some (FNode.file old) →
      ¬ r.absolutePath = [] →
      fsWrite fs root input content true =
        (Fs.insert fs1 r.absolutePath (FNode.file content),
          Except.ok { path := r.relativePath, bytesWritten := content.utf8ByteSize }) ∧
      Fs.lookup (Fs.insert fs1 r.absolutePath (FNode.file content)) r.absolutePath =
        some (FNode.file content)) ∧
    (∀ (fs fs1 fs2 : Fs) (root rootReal : List String) (input content : String)
        (overwrite : Bool) (r : ResolvedPath),
      ensureWorkspaceRoot fs root = (fs1, Except.ok rootReal) →
      resolveSandboxPath fs1 rootReal input = Except.ok r →
      (∀ x ∈ r.absolutePath, plainComp x = true) →
      ¬ r.absolutePath = [] →
      Fs.lookup fs1 r.absolutePath = none →
      noSymlinks fs1 = true →
      mkdirRec fs1 r.absolutePath.dropLast = (fs2, none) →
      fsWrite fs root input content overwrite =
        (Fs.insert fs2 r.absolutePath (FNode.file content),
          Except.ok { path := r.relativePath, bytesWritten := content.utf8ByteSize }) ∧
      (∀ q, ¬ q = [] → q <+: r.absolutePath.dropLast →
        Fs.lookup (Fs.insert fs2 r.absolutePath (FNode.file content)) q = some FNode.dir)) := by
  refine ⟨?_, ?_, ?_⟩
  · intro fs fs1 root rootReal input content r hens hres hex
    obtain ⟨hmk, _⟩ := ensureWorkspaceRoot_inv fs root fs1 rootReal hens
    constructor
    · unfold fsWrite
      rw [hens]
      dsimp only
      rw [hres]
      dsimp only
      rw [hex, if_pos (by decide)]
    · intro q n hq
      unfold mkdirRec at hmk
      exact mkdirRecAux_preserves (realpathFuel root) root fs [] fs1 none hmk q n hq
  · intro fs fs1 root rootReal input content old r hens hres hplain hdirs hlook habsne
    have hwf : writeFile fs1 r.absolutePath content =
        Except.ok (Fs.insert fs1 r.absolutePath (FNode.file content)) :=
      writeFile_plain fs1 r.absolutePath content habsne hplain hdirs (Or.inr ⟨old, hlook⟩)
    constructor
    · unfold fsWrite
      rw [hens]
      dsimp only
      rw [hres]
      dsimp only
      rw [if_neg (by simp)]
      rw [mkdirRec_noop fs1 r.absolutePath.dropLast
        (fun x hx => hplain x (List.dropLast_subset _ hx)) hdirs]
      dsimp only
      rw [hwf]
    · exact lookup_insert_self fs1 r.absolutePath (FNode.file content) habsne
  · intro fs fs1 fs2 root rootReal input content overwrite r hens hres hplain habsne hmiss
      hnosym hmkdir
    obtain ⟨hA, hB, hC⟩ := mkdirRecAux_plain r.absolutePath.dropLast
      (realpathFuel r.absolutePath.dropLast) fs1 [] fs2
      (by unfold realpathFuel; omega)
      (fun x hx => hplain x (List.dropLast_subset _ hx)) hnosym hmkdir
    have hmiss2 : Fs.lookup fs2 r.absolutePath = none := by
      rcases hA r.absolutePath with h | h
      · rw [h]; exact hmiss
      · exfalso
        have hpre : r.absolutePath <+: r.absolutePath.dropLast := by
          simpa using h.2.2.2.2
        have hle := hpre.length_le
        have hlt := List.length_dropLast r.absolutePath
        have hpos : 0 < r.absolutePath.length := List.length_pos.mpr habsne
        omega
    have hwf : writeFile fs2 r.absolutePath content =
        Except.ok (Fs.insert fs2 r.absolutePath (FNode.file content)) :=
      writeFile_plain fs2 r.absolutePath content habsne hplain hB (Or.inl hmiss2)
    have hex : fileExists fs1 r.absolutePath = false :=
      fileExists_missing fs1 r.absolutePath hnosym hplain hmiss habsne
    constructor
    · unfold fsWrite
      rw [hens]
      dsimp only
      rw [hres]
      dsimp only
      rw [hex, if_neg (by simp)]
      rw [hmkdir]
      dsimp only
      rw [hwf]
    · intro q hq hqpre
      obtain ⟨l₂, hl₂⟩ := hqpre
      have hqdir : Fs.lookup fs2 q = some FNode.dir := by
        have hchain : allDirsAux fs2 [] (q ++ l₂) = true := by rw [hl₂]; exact hB
        have := allDirsAux_last fs2 q [] (allDirsAux_of_append fs2 q l₂ [] hchain) hq
        simpa using this
      have hne : ¬ q = r.absolutePath := by
        intro hcontra
        have hle : q.length ≤ r.absolutePath.dropLast.length :=
          List.IsPrefix.length_le ⟨l₂, hl₂⟩
        have hdl := List.length_dropLast r.absolutePath
        have hpos : 0 < r.absolutePath.length := List.length_pos.mpr habsne
        rw [hcontra] at hle
        omega
      rw [lookup_insert_ne fs2 r.absolutePath (FNode.file content) q hne]
      exact hqdir


/-- C6 witness: on the S3 workspace, rewriting the existing `a.txt`
with `overwrite = false` fails with `File already exists` and leaves
the workspace untouched, while `overwrite = true` replaces the
content. -/
theorem c6_fswrite_overwrite_semantics_witness :
    fsWrite fsScenarioS3 ["ws"] ("a.txt") ("x") false =
      (fsScenarioS3, Except.error (Err.alreadyExists ("a.txt"))) ∧
    fsWrite fsScenarioS3 ["ws"] ("a.txt") ("x") true =
      (Fs.insert fsScenarioS3 ["ws", "a.txt"] (FNode.file "x"),
        Except.ok { path := "a.txt", bytesWritten := 1 }) :=
  ⟨(c6_fswrite_overwrite_semantics.1 fsScenarioS3 fsScenarioS3 ["ws"] ["ws"] ("a.txt") ("x")
      { root := ["ws"], absolutePath := ["ws", "a.txt"], relativePath := "a.txt" }
      (by rfl) (by rfl) (by rfl)).1,
    (c6_fswrite_overwrite_semantics.2.1 fsScenarioS3 fsScenarioS3 ["ws"] ["ws"] ("a.txt") ("x")
      ("hello")
      { root := ["ws"], absolutePath := ["ws", "a.txt"], relativePath := "a.txt" }
      (by rfl) (by rfl) (by decide) (by decide) (by rfl) (by decide)).1⟩

/-- Environment whose logger append always fails, standing in for a
session logger whose `fs.appendFile` rejects. -/
def envLogFailure : LoopEnv Nat :=
  { maxSteps := 3
    autoApprove := false
    writeTools := registryWriteTools
    confirm := fun _ => false
    handlers := fun _ => none
    parseOk := fun _ => true
    logFail := fun _ => some ("ENOSPC: no space left on device, write")
    routed := fun _ => none
    systemPrompt := fun _ => ("") }

/-- C8, counterexample to the claim as stated.  `createSessionLogger`
rethrows any `fs.appendFile` failure (`log` has no catch), and
`runTurn` awaits `logger.log` without a try/catch, so a failing
append propagates out of `runTurn` and aborts the turn — it is not
swallowed: the very first log of the turn (the user message) already
rejects the whole call. -/
theorem c8_logger_swallowed_counterexample :
    runTurn envLogFailure [] 0 ("hello") [] =
      Except.error ("ENOSPC: no space left on device, write") := by
  rfl

/-- C8, amended.  A failure of the session logger's append is *not*
swallowed: it propagates out of `runTurn` and aborts the turn.  In
particular, whenever the logger rejects the user-message entry — the
first append of every turn — `runTurn` throws exactly that error, for
every conversation, state, request and provider script. -/
theorem c8_logger_failure_propagates {σ : Type} (env : LoopEnv σ) (msgs₀ : List Msg)
    (st : σ) (request : String) (script : List (Option Msg)) (e : String)
    (hlog : env.logFail (LogEntry.message Role.user (some request) []) = some e) :
    runTurn env msgs₀ st request script = Except.error e := by
  unfold runTurn
  rw [hlog]

/-- C8 witness: the propagation theorem at the concrete
always-failing logger. -/
theorem c8_logger_failure_propagates_witness :
    envLogFailure.logFail (LogEntry.message Role.user (some ("hi")) []) =
      some ("ENOSPC: no space left on device, write") ∧
    runTurn envLogFailure [] 0 ("hi") [] =
      Except.error ("ENOSPC: no space left on device, write") :=
  ⟨rfl, c8_logger_failure_propagates envLogFailure [] 0 ("hi") [] _ rfl⟩

/-- Environment with no registered handlers, an always-successful
logger and auto-approve on. -/
def envNoHandlers : LoopEnv Nat :=
  { maxSteps := 5
    autoApprove := true
    writeTools := registryWriteTools
    confirm := fun _ => true
    handlers := fun _ => none
    parseOk := fun _ => true
    logFail := fun _ => none
    routed := fun _ => none
    systemPrompt := fun _ => ("") }

/-- The assistant message calling the unregistered tool `nosuch`. -/
def msgUnknownTool : Msg :=
  { role := Role.assistant, content := none,
    tool_calls := [{ id := "call_1", name := "nosuch", arguments := "\x7b\x7d" }] }

/-- The assistant message ending the turn. -/
def msgDone : Msg :=
  { role := Role.assistant, content := some ("done") }

/-- C9.  A tool call whose name has no registered handler (arguments
parse, write not declined) produces a tool message whose content is
the serialized `{error: "Unknown tool: <name>"}` object, leaves the
state untouched, and the loop continues the turn rather than raising
(second conjunct: a concrete turn with such a call still reaches the
next step and returns its text). -/
theorem c9_unknown_tool :
    (∀ (σ : Type) (env : LoopEnv σ) (st : σ) (tc : ToolCall),
      env.parseOk (argsEffective tc.arguments) = true →
      (if env.writeTools.contains tc.name && !env.autoApprove then
          env.confirm ("Approve " ++ tc.name ++ " to write to workspace? (y/N) ")
        else true) = true →
      env.handlers tc.name = none →
      env.logFail (LogEntry.toolCallEntry tc.name (argsEffective tc.arguments) true) = none →
      env.logFail (LogEntry.toolResultEntry tc.name
        (ToolResult.err ("Unknown tool: " ++ tc.name))) = none →
      execToolCall env st tc = Except.ok
        ([LogEntry.toolCallEntry tc.name (argsEffective tc.arguments) true,
          LogEntry.toolResultEntry tc.name (ToolResult.err ("Unknown tool: " ++ tc.name))],
          { role := Role.tool, tool_call_id := some tc.id,
            content := some (encodeResult (ToolResult.err ("Unknown tool: " ++ tc.name))) },
          st)) ∧
    (runTurn envNoHandlers [] 0 ("go") [some msgUnknownTool, some msgDone]).map
        (fun o => (o.result, o.messages)) =
      Except.ok (("done"),
        [{ role := Role.user, content := some ("go") },
          msgUnknownTool,
          { role := Role.tool, tool_call_id := some ("call_1"),
            content := some ("\x7b\"error\":\"Unknown tool: nosuch\"\x7d") },
          msgDone]) := by
  constructor
  · intro σ env st tc hparse hallowed hhandler hlog1 hlog2
    unfold execToolCall
    rw [hparse, if_neg (by decide)]
    rw [hlog1]
    dsimp only
    rw [hallowed, if_neg (by decide)]
    rw [hhandler]
    dsimp only
    rw [hlog2]
  · rfl

/-- C9 witness: the general conjunct applied to the concrete
environment and the `nosuch` call. -/
theorem c9_unknown_tool_witness :
    envNoHandlers.handlers ("nosuch") = none ∧
    execToolCall envNoHandlers 0 { id := "call_1", name := "nosuch", arguments := "\x7b\x7d" } =
      Except.ok
        ([LogEntry.toolCallEntry ("nosuch") ("\x7b\x7d") true,
          LogEntry.toolResultEntry ("nosuch") (ToolResult.err ("Unknown tool: nosuch"))],
          { role := Role.tool, tool_call_id := some ("call_1"),
            content := some (encodeResult (ToolResult.err ("Unknown tool: nosuch"))) },
          0) :=
  ⟨rfl,
    c9_unknown_tool.1 Nat envNoHandlers 0
      { id := "call_1", name := "nosuch", arguments := "\x7b\x7d" }
      (by rfl) (by rfl) (by rfl) (by rfl) (by rfl)⟩

/-- Every tool message pushed by `execToolCall` has role `tool` and
carries the call's id. -/
theorem execToolCall_spec {σ : Type} (env : LoopEnv σ) (st : σ) (tc : ToolCall)
    (logs : List LogEntry) (msg : Msg) (st' : σ)
    (h : execToolCall env st tc = Except.ok (logs, msg, st')) :
    msg.role = Role.tool ∧ msg.tool_call_id = some tc.id := by
  unfold execToolCall at h
  split at h
  · dsimp only at h
    split at h
    · exact absurd h (by simp)
    · split at h
      · exact absurd h (by simp)
      · injection h with h1
        have hm := congrArg (fun x : List LogEntry × Msg × σ => x.2.1) h1
        dsimp only at hm
        rw [← hm]
        exact ⟨rfl, rfl⟩
  · dsimp only at h
    split at h
    · exact absurd h (by simp)
    · split at h
      · exact absurd h (by simp)
      · injection h with h1
        have hm := congrArg (fun x : List LogEntry × Msg × σ => x.2.1) h1
        dsimp only at hm
        rw [← hm]
        exact ⟨rfl, rfl⟩

/-- The inner content loop of `shapeRestFuel` (defined below for the
conversation-shape claim): consume the tool block matching a list of
ids. -/
def takeToolBlock : List String → List Msg → Option (List Msg)
  | [], rest => some rest
  | _ :: _, [] => none
  | i :: ids, m :: rest =>
    if (m.role == Role.tool) && (m.tool_call_id == some i) then takeToolBlock ids rest
    else none

/-- The tool messages pushed for the calls of one assistant message
form exactly the block expected for the calls' ids, in order. -/
theorem execToolCalls_spec {σ : Type} (env : LoopEnv σ) :
    ∀ (tcs : List ToolCall) (st : σ) (logs : List LogEntry) (msgs : List Msg) (st' : σ),
      execToolCalls env st tcs = Except.ok (logs, msgs, st') →
      takeToolBlock (tcs.map ToolCall.id) msgs = some [] ∧
      (∀ m ∈ msgs, m.role = Role.tool)
  | [], st, logs, msgs, st', h => by
    unfold execToolCalls at h
    injection h with h1
    have hm := congrArg (fun x : List LogEntry × List Msg × σ => x.2.1) h1
    dsimp only at hm
    rw [← hm]
    exact ⟨rfl, by intro m hm2; exact absurd hm2 (List.not_mem_nil m)⟩
  | tc :: tcs, st, logs, msgs, st', h => by
    unfold execToolCalls at h
    split at h
    · exact absurd h (by simp)
    · rename_i logs1 msg1 st1 h1
      split at h
      · exact absurd h (by simp)
      · rename_i logs2 msgs2 st2 h2
        injection h with h3
        have hm := congrArg (fun x : List LogEntry × List Msg × σ => x.2.1) h3
        dsimp only at hm
        obtain ⟨hrole, hid⟩ := execToolCall_spec env st tc logs1 msg1 st1 h1
        obtain ⟨hblock, hroles⟩ := execToolCalls_spec env tcs st1 logs2 msgs2 st2 h2
        rw [← hm]
        constructor
        · show takeToolBlock (tc.id :: tcs.map ToolCall.id) (msg1 :: msgs2) = some []
          unfold takeToolBlock
          rw [if_pos (by simp [hrole, hid])]
          exact hblock
        · intro m hm2
          rcases List.mem_cons.mp hm2 with hm3 | hm3
          · rw [hm3]; exact hrole
          · exact hroles m hm3

def assistantCount (msgs : List Msg) : Nat :=
  (msgs.filter (fun m => m.role == Role.assistant)).length

theorem assistantCount_append (a b : List Msg) :
    assistantCount (a ++ b) = assistantCount a + assistantCount b := by
  simp [assistantCount, List.filter_append]

theorem assistantCount_tools (l : List Msg) (h : ∀ m ∈ l, m.role = Role.tool) :
    assistantCount l = 0 := by
  simp only [assistantCount, List.length_eq_zero]
  rw [List.filter_eq_nil_iff]
  intro m hm
  rw [h m hm]
  decide

theorem assistantCount_single_le (m : Msg) : assistantCount [m] ≤ 1 := by
  unfold assistantCount
  cases hb : (m.role == Role.assistant) <;> simp [List.filter, hb]

/-- Behavior of the step loop: the number of assistant messages grows
by at most the fuel; if every scripted step is non-final (a tool-call
round or an empty message), the loop returns the max-steps sentinel;
and if every scripted step carries neither tool calls nor content,
the state is additionally untouched. -/
theorem runLoop_spec {σ : Type} (env : LoopEnv σ) :
    ∀ (n : Nat) (msgs : List Msg) (logs : List LogEntry) (st : σ)
      (script : List (Option Msg)) (out : TurnOutput σ),
      runLoop env n msgs logs st script = Except.ok out →
      assistantCount out.messages ≤ assistantCount msgs + n ∧
      ((∀ i, i < n → ∃ m, script.get? i = some (some m) ∧
          (m.tool_calls.length = 0 → ¬ contentNonempty m = true)) →
        out.result = maxStepsSentinel env.maxSteps) ∧
      ((∀ i, i < n → ∃ m, script.get? i = some (some m) ∧ m.tool_calls = [] ∧
          ¬ contentNonempty m = true) →
        out.result = maxStepsSentinel env.maxSteps ∧ out.state = st)
  | 0, msgs, logs, st, script, out, h => by
    injection h with h1
    rw [← h1]
    exact ⟨by simp, fun _ => rfl, fun _ => ⟨rfl, rfl⟩⟩
  | Nat.succ n, msgs, logs, st, script, out, h => by
    cases script with
    | nil =>
      injection h with h1
      rw [← h1]
      refine ⟨by simp, ?_, ?_⟩
      · intro hyp
        obtain ⟨m, hm, _⟩ := hyp 0 (Nat.succ_pos n)
        exact absurd hm (by simp)
      · intro hyp
        obtain ⟨m, hm, _⟩ := hyp 0 (Nat.succ_pos n)
        exact absurd hm (by simp)
    | cons s0 script1 =>
      cases s0 with
      | none =>
        injection h with h1
        rw [← h1]
        refine ⟨by simp, ?_, ?_⟩
        · intro hyp
          obtain ⟨m, hm, _⟩ := hyp 0 (Nat.succ_pos n)
          exact absurd hm (by simp)
        · intro hyp
          obtain ⟨m, hm, _⟩ := hyp 0 (Nat.succ_pos n)
          exact absurd hm (by simp)
      | some m =>
        unfold runLoop at h
        simp only [List.head?_cons, List.tail_cons] at h
        split at h
        · exact absurd h (by simp)
        · split at h
          · rename_i hcalls
            split at h
            · exact absurd h (by simp)
            · rename_i tlogs tmsgs st2 hexec
              obtain ⟨ih1, ih2, ih3⟩ := runLoop_spec env n (msgs ++ [m] ++ tmsgs)
                (logs ++ [LogEntry.message Role.assistant m.content m.tool_calls] ++ tlogs)
                st2 script1 out h
              obtain ⟨_, hroles⟩ := execToolCalls_spec env m.tool_calls st tlogs tmsgs st2 hexec
              refine ⟨?_, ?_, ?_⟩
              · have hc := assistantCount_append (msgs ++ [m]) tmsgs
                have hc2 := assistantCount_append msgs [m]
                have hc3 := assistantCount_tools tmsgs hroles
                have hc4 := assistantCount_single_le m
                omega
              · intro hyp
                refine ih2 (fun i hi => ?_)
                obtain ⟨m2, hm2, hm3⟩ := hyp (i + 1) (Nat.succ_lt_succ hi)
                exact ⟨m2, by simpa using hm2, hm3⟩
              · intro hyp
                exfalso
                obtain ⟨m2, hm2, hm3, _⟩ := hyp 0 (Nat.succ_pos n)
                have hmm : m2 = m := by
                  simp at hm2
                  exact hm2.symm
                rw [← hmm, hm3] at hcalls
                exact absurd hcalls (by simp)
          · rename_i hcalls
            split at h
            · rename_i hcontent
              injection h with h1
              rw [← h1]
              refine ⟨?_, ?_, ?_⟩
              · have hc2 := assistantCount_append msgs [m]
                have hc4 := assistantCount_single_le m
                dsimp only
                omega
              · intro hyp
                exfalso
                obtain ⟨m2, hm2, hm3⟩ := hyp 0 (Nat.succ_pos n)
                have hmm : m2 = m := by
                  simp at hm2
                  exact hm2.symm
                rw [hmm] at hm3
                exact hm3 (by simpa using Nat.eq_zero_of_not_pos hcalls) hcontent
              · intro hyp
                exfalso
                obtain ⟨m2, hm2, _, hm4⟩ := hyp 0 (Nat.succ_pos n)
                have hmm : m2 = m := by
                  simp at hm2
                  exact hm2.symm
                rw [hmm] at hm4
                exact hm4 hcontent
            · rename_i hcontent
              obtain ⟨ih1, ih2, ih3⟩ := runLoop_spec env n (msgs ++ [m])
                (logs ++ [LogEntry.message Role.assistant m.content m.tool_calls])
                st script1 out h
              refine ⟨?_, ?_, ?_⟩
              · have hc2 := assistantCount_append msgs [m]
                have hc4 := assistantCount_single_le m
                omega
              · intro hyp
                refine ih2 (fun i hi => ?_)
                obtain ⟨m2, hm2, hm3⟩ := hyp (i + 1) (Nat.succ_lt_succ hi)
                exact ⟨m2, by simpa using hm2, hm3⟩
              · intro hyp
                refine ih3 (fun i hi => ?_)
                obtain ⟨m2, hm2, hm3⟩ := hyp (i + 1) (Nat.succ_lt_succ hi)
                exact ⟨m2, by simpa using hm2, hm3⟩

theorem assistantCount_push_nonassistant (a : List Msg) (m : Msg)
    (h : ¬ m.role = Role.assistant) : assistantCount (a ++ [m]) = assistantCount a := by
  have hm : (m.role == Role.assistant) = false := by simpa using h
  rw [assistantCount_append]
  have hz : assistantCount [m] = 0 := by
    simp [assistantCount, List.filter, hm]
  rw [hz]
  rfl

/-- C2, amended.  Per request the loop runs at most `maxSteps`
assistant messages; if every scripted provider response is non-final
(it carries tool calls or no usable content) the turn returns exactly
the sentinel string; and the overflow exit itself performs no
mutation — when no scripted step carries tool calls the file state at
return is exactly the initial state.  (Tool calls executed during the
turn's earlier steps, however, may already have mutated files by the
time the sentinel is returned; see the counterexample.) -/
theorem c2_max_steps {σ : Type} (env : LoopEnv σ) (msgs₀ : List Msg) (st : σ)
    (request : String) (script : List (Option Msg)) (out : TurnOutput σ)
    (h : runTurn env msgs₀ st request script = Except.ok out) :
    assistantCount out.messages ≤ assistantCount msgs₀ + env.maxSteps ∧
    ((∀ i, i < env.maxSteps → ∃ m, script.get? i = some (some m) ∧
        (m.tool_calls.length = 0 → ¬ contentNonempty m = true)) →
      out.result = maxStepsSentinel env.maxSteps) ∧
    ((∀ i, i < env.maxSteps → ∃ m, script.get? i = some (some m) ∧ m.tool_calls = [] ∧
        ¬ contentNonempty m = true) →
      out.result = maxStepsSentinel env.maxSteps ∧ out.state = st) := by
  unfold runTurn at h
  split at h
  · exact absurd h (by simp)
  · split at h
    · obtain ⟨s1, s2, s3⟩ := runLoop_spec env env.maxSteps _ _ st script out h
      refine ⟨?_, s2, s3⟩
      rw [assistantCount_push_nonassistant msgs₀ _ (by intro hc; exact Role.noConfusion hc)] at s1
      exact s1
    · split at h
      · split at h
        · exact absurd h (by simp)
        · obtain ⟨s1, s2, s3⟩ := runLoop_spec env env.maxSteps _ _ st script out h
          refine ⟨?_, s2, s3⟩
          rw [assistantCount_push_nonassistant _ _ (by intro hc; exact Role.noConfusion hc),
            assistantCount_push_nonassistant msgs₀ _ (by intro hc; exact Role.noConfusion hc)] at s1
          exact s1
      · obtain ⟨s1, s2, s3⟩ := runLoop_spec env env.maxSteps _ _ st script out h
        refine ⟨?_, s2, s3⟩
        rw [assistantCount_push_nonassistant msgs₀ _ (by intro hc; exact Role.noConfusion hc)] at s1
        exact s1

/-- Environment of the overflow counterexample: one step, auto-approve
on, a real `fs_write` handler writing `x.txt` into the model
workspace. -/
def envC2 : LoopEnv Fs :=
  { maxSteps := 1
    autoApprove := true
    writeTools := registryWriteTools
    confirm := fun _ => true
    handlers := fun nm =>
      if nm = "fs_write" then
        some (fun _ fs =>
          match fsWrite fs ["ws"] ("x.txt") ("hi") false with
          | (fs1, Except.ok res) => (fs1, ToolResult.ok (res.path))
          | (fs1, Except.error _) => (fs1, ToolResult.err ("write failed")))
      else none
    parseOk := fun _ => true
    logFail := fun _ => none
    routed := fun _ => none
    systemPrompt := fun _ => ("") }

/-- The single scripted assistant message: an `fs_write` call and no
content. -/
def msgC2 : Msg :=
  { role := Role.assistant, content := none,
    tool_calls := [{ id := "call_1", name := "fs_write", arguments := "\x7b\x7d" }] }

/-- C2, counterexample to the claim as stated.  A one-step turn whose
only assistant message carries an approved `fs_write` call overflows
(the loop exits without textual content and returns exactly the
sentinel), yet the turn *has* mutated a file: `ws/x.txt` exists in
the final state and did not exist before.  The sentinel and step
bound hold; the "does not mutate any file" clause does not. -/
theorem c2_max_steps_counterexample :
    (runTurn envC2 [] fsOnlyRoot ("write x") [some msgC2]).map
        (fun o => (o.result, Fs.lookup o.state ["ws", "x.txt"])) =
      Except.ok (("Reached max steps (1) without final response."), some (FNode.file ("hi"))) ∧
    Fs.lookup fsOnlyRoot ["ws", "x.txt"] = none := by
  exact ⟨rfl, rfl⟩

/-- C2 witness: the amended theorem applied to the counterexample
run — the overflow result is exactly the sentinel. -/
theorem c2_max_steps_witness :
    runTurn envC2 [] fsOnlyRoot ("write x") [some msgC2] = Except.ok
      { messages := [{ role := Role.user, content := some ("write x") }, msgC2,
          { role := Role.tool, content := some ("x.txt"), tool_call_id := some ("call_1") }]
        logs := [LogEntry.message Role.user (some ("write x")) [],
          LogEntry.message Role.assistant none msgC2.tool_calls,
          LogEntry.toolCallEntry ("fs_write") ("\x7b\x7d") true,
          LogEntry.toolResultEntry ("fs_write") (ToolResult.ok ("x.txt"))]
        state := [(["ws", "x.txt"], FNode.file ("hi")), (["ws"], FNode.dir)]
        result := "Reached max steps (1) without final response." } ∧
    "Reached max steps (1) without final response." = maxStepsSentinel envC2.maxSteps ∧
    assistantCount [{ role := Role.user, content := some ("write x") }, msgC2,
        { role := Role.tool, content := some ("x.txt"), tool_call_id := some ("call_1") }] ≤
      assistantCount [] + envC2.maxSteps :=
  ⟨by rfl, by rfl,
    (c2_max_steps envC2 [] fsOnlyRoot ("write x") [some msgC2] _ (by rfl)).1⟩

/-! ### The conversation-shape invariant

`claimShape` transcribes the claim: the conversation starts with a
system message, and every id referenced by an assistant message with
tool calls is answered exactly once by a tool message before the next
assistant message. -/

/-- `true` when the message is not an assistant message: the guard
delimiting the tool segment after an assistant message. -/
def nonAssistant (m : Msg) : Bool := !(m.role == Role.assistant)

/-- The messages strictly after an assistant message and before the
next assistant message. -/
def segOf (rest : List Msg) : List Msg := rest.takeWhile nonAssistant

/-- How many messages of a segment are tool messages answering id
`i`. -/
def segCount (i : String) (seg : List Msg) : Nat :=
  (seg.filter (fun m => (m.role == Role.tool) && (m.tool_call_id == some i))).length

/-- Each referenced id is answered exactly once before the next
assistant message. -/
def claimSegment (ids : List String) (rest : List Msg) : Bool :=
  ids.all (fun i => segCount i (segOf rest) == 1)

/-- The per-assistant condition checked at every suffix. -/
def claimShapeAux : List Msg → Bool
  | [] => true
  | m :: rest =>
    (if (m.role == Role.assistant) && !m.tool_calls.isEmpty then
        claimSegment (m.tool_calls.map ToolCall.id) rest
      else true) && claimShapeAux rest

/-- The whole conversation-shape condition: system message first,
every tool call answered exactly once in its segment. -/
def claimShape : List Msg → Bool
  | [] => false
  | m :: rest => (m.role == Role.system) && claimShapeAux (m :: rest)

theorem claimShapeAux_cons (m : Msg) (rest : List Msg) :
    claimShapeAux (m :: rest) =
      ((if (m.role == Role.assistant) && !m.tool_calls.isEmpty then
          claimSegment (m.tool_calls.map ToolCall.id) rest
        else true) && claimShapeAux rest) := rfl

theorem claimShape_cons (m : Msg) (rest : List Msg) :
    claimShape (m :: rest) = ((m.role == Role.system) && claimShapeAux (m :: rest)) := rfl

theorem segCount_cons (i : String) (m : Msg) (rest : List Msg) :
    segCount i (m :: rest) =
      (if (m.role == Role.tool) && (m.tool_call_id == some i) then 1 else 0) +
        segCount i rest := by
  unfold segCount
  rw [List.filter_cons]
  split
  · rw [List.length_cons]
    omega
  · omega

theorem segCount_zero_of_no_tool (i : String) (l : List Msg)
    (h : ∀ x ∈ l, (x.role == Role.tool) = false) : segCount i l = 0 := by
  induction l with
  | nil => rfl
  | cons m rest ih =>
    rw [segCount_cons, ih (fun x hx => h x (List.mem_cons_of_mem m hx)),
      h m (List.mem_cons_self m rest)]
    rfl

theorem segOf_cons (m : Msg) (rest : List Msg) :
    segOf (m :: rest) = if nonAssistant m then m :: segOf rest else [] := by
  unfold segOf
  rw [List.takeWhile_cons]

theorem segOf_of_all (l : List Msg) (h : ∀ x ∈ l, nonAssistant x = true) :
    segOf l = l := by
  induction l with
  | nil => rfl
  | cons m rest ih =>
    rw [segOf_cons, if_pos (h m (List.mem_cons_self m rest)),
      ih (fun x hx => h x (List.mem_cons_of_mem m hx))]

theorem segOf_append_stop (x : Msg) (b : List Msg) (hx : nonAssistant x = false) :
    ∀ r : List Msg, segOf (r ++ x :: b) = segOf r
  | [] => by
    show segOf (x :: b) = segOf []
    rw [segOf_cons, if_neg (by rw [hx]; exact Bool.false_ne_true)]
    rfl
  | m :: r => by
    show segOf (m :: (r ++ x :: b)) = segOf (m :: r)
    rw [segOf_cons, segOf_cons, segOf_append_stop x b hx r]

theorem segCount_segOf_append_neutral (i : String) (b : List Msg)
    (hb : ∀ x ∈ b, nonAssistant x = true ∧ (x.role == Role.tool) = false) :
    ∀ r : List Msg, segCount i (segOf (r ++ b)) = segCount i (segOf r)
  | [] => by
    show segCount i (segOf b) = segCount i (segOf [])
    rw [segOf_of_all b (fun x hx => (hb x hx).1),
      segCount_zero_of_no_tool i b (fun x hx => (hb x hx).2)]
    rfl
  | m :: r => by
    show segCount i (segOf (m :: (r ++ b))) = segCount i (segOf (m :: r))
    rw [segOf_cons, segOf_cons]
    by_cases hm : nonAssistant m = true
    · rw [if_pos hm, if_pos hm, segCount_cons, segCount_cons,
        segCount_segOf_append_neutral i b hb r]
    · rw [if_neg hm, if_neg hm]

theorem claimShapeAux_of_nonassistant (l : List Msg)
    (h : ∀ x ∈ l, (x.role == Role.assistant) = false) : claimShapeAux l = true := by
  induction l with
  | nil => rfl
  | cons m rest ih =>
    rw [claimShapeAux_cons, Bool.and_eq_true]
    refine ⟨?_, ih (fun x hx => h x (List.mem_cons_of_mem m hx))⟩
    have hm : ¬ (((m.role == Role.assistant) && !m.tool_calls.isEmpty) = true) := by
      rw [h m (List.mem_cons_self m rest)]
      simp
    rw [if_neg hm]

theorem claimShapeAux_single_noCalls (m : Msg) (h : m.tool_calls = []) :
    claimShapeAux [m] = true := by
  rw [claimShapeAux_cons, Bool.and_eq_true]
  refine ⟨?_, rfl⟩
  have hc : ¬ (((m.role == Role.assistant) && !m.tool_calls.isEmpty) = true) := by
    rw [h]
    simp
  rw [if_neg hc]

theorem takeToolBlock_segCount :
    ∀ (ids : List String) (tmsgs : List Msg),
      takeToolBlock ids tmsgs = some [] → ids.Nodup →
      ∀ i : String, segCount i tmsgs = if i ∈ ids then 1 else 0
  | [], tmsgs, h, _, i => by
    unfold takeToolBlock at h
    injection h with h1
    rw [h1]
    rfl
  | i0 :: ids, tmsgs, h, hnd, i => by
    cases tmsgs with
    | nil => exact absurd h (by unfold takeToolBlock; simp)
    | cons m rest =>
      unfold takeToolBlock at h
      split at h
      · rename_i hcond
        rw [Bool.and_eq_true] at hcond
        obtain ⟨hrole, hid⟩ := hcond
        have hrole2 : m.role = Role.tool := by simpa using hrole
        have hid2 : m.tool_call_id = some i0 := by simpa using hid
        rw [List.nodup_cons] at hnd
        obtain ⟨hni, hnd2⟩ := hnd
        rw [segCount_cons, takeToolBlock_segCount ids rest h hnd2 i, hrole2, hid2]
        by_cases hii : i = i0
        · subst hii
          rw [if_pos (show ((Role.tool == Role.tool) && (some i == some i)) = true by simp),
            if_pos (List.mem_cons_self i ids), if_neg hni]
        · have hcnd : ¬ (((Role.tool == Role.tool) && (some i0 == some i)) = true) := by
            simp
            exact fun he => hii he.symm
          rw [if_neg hcnd]
          by_cases him : i ∈ ids
          · rw [if_pos him, if_pos (List.mem_cons_of_mem i0 him)]
          · rw [if_neg him, if_neg (by
              intro hmem
              rcases List.mem_cons.mp hmem with h3 | h3
              · exact hii h3
              · exact him h3)]
      · exact absurd h (by simp)

theorem claimSegment_of_block (ids : List String) (tmsgs : List Msg)
    (hblock : takeToolBlock ids tmsgs = some []) (hnd : ids.Nodup)
    (hroles : ∀ x ∈ tmsgs, x.role = Role.tool) :
    claimSegment ids tmsgs = true := by
  unfold claimSegment
  rw [List.all_eq_true]
  intro i hi
  show (segCount i (segOf tmsgs) == 1) = true
  rw [segOf_of_all tmsgs (fun x hx => by
      unfold nonAssistant
      rw [hroles x hx]
      rfl),
    takeToolBlock_segCount ids tmsgs hblock hnd i, if_pos hi]
  rfl

theorem claimShapeAux_block (m : Msg) (tmsgs : List Msg)
    (_hm : m.role = Role.assistant)
    (hroles : ∀ x ∈ tmsgs, x.role = Role.tool)
    (hblock : takeToolBlock (m.tool_calls.map ToolCall.id) tmsgs = some [])
    (hnd : (m.tool_calls.map ToolCall.id).Nodup) :
    claimShapeAux (m :: tmsgs) = true := by
  rw [claimShapeAux_cons, Bool.and_eq_true]
  refine ⟨?_, claimShapeAux_of_nonassistant tmsgs (fun x hx => by rw [hroles x hx]; rfl)⟩
  by_cases hc : ((m.role == Role.assistant) && !m.tool_calls.isEmpty) = true
  · rw [if_pos hc]
    exact claimSegment_of_block _ tmsgs hblock hnd hroles
  · rw [if_neg hc]

theorem segOf_neutral_assistant_head (m : Msg) (b : List Msg)
    (hm : m.role = Role.assistant) (i : String) (r : List Msg) :
    segCount i (segOf (r ++ m :: b)) = segCount i (segOf r) := by
  rw [segOf_append_stop m b (by unfold nonAssistant; rw [hm]; rfl) r]

theorem segOf_neutral_nontool (b : List Msg)
    (hb : ∀ x ∈ b, ¬ x.role = Role.tool ∧ ¬ x.role = Role.assistant)
    (i : String) (r : List Msg) :
    segCount i (segOf (r ++ b)) = segCount i (segOf r) := by
  refine segCount_segOf_append_neutral i b (fun x hx => ⟨?_, ?_⟩) r
  · unfold nonAssistant
    rw [show (x.role == Role.assistant) = false by simpa using (hb x hx).2]
    rfl
  · simpa using (hb x hx).1

theorem claimShapeAux_append (a b : List Msg)
    (hb : claimShapeAux b = true)
    (hneutral : ∀ (i : String) (r : List Msg),
      segCount i (segOf (r ++ b)) = segCount i (segOf r)) :
    claimShapeAux a = true → claimShapeAux (a ++ b) = true := by
  induction a with
  | nil => exact fun _ => hb
  | cons m a ih =>
    intro ha
    rw [claimShapeAux_cons, Bool.and_eq_true] at ha
    obtain ⟨h1, h2⟩ := ha
    show claimShapeAux (m :: (a ++ b)) = true
    rw [claimShapeAux_cons, Bool.and_eq_true]
    refine ⟨?_, ih h2⟩
    by_cases hc : ((m.role == Role.assistant) && !m.tool_calls.isEmpty) = true
    · rw [if_pos hc] at h1 ⊢
      unfold claimSegment at h1 ⊢
      rw [List.all_eq_true] at h1 ⊢
      intro i hi
      show (segCount i (segOf (a ++ b)) == 1) = true
      rw [hneutral i a]
      exact h1 i hi
    · rw [if_neg hc]

theorem runLoop_shape {σ : Type} (env : LoopEnv σ) :
    ∀ (n : Nat) (msgs : List Msg) (logs : List LogEntry) (st : σ)
      (script : List (Option Msg)) (out : TurnOutput σ),
      runLoop env n msgs logs st script = Except.ok out →
      claimShapeAux msgs = true →
      (∀ m : Msg, some m ∈ script →
        m.role = Role.assistant ∧ (m.tool_calls.map ToolCall.id).Nodup) →
      claimShapeAux out.messages = true ∧ ∃ t, out.messages = msgs ++ t
  | 0, msgs, logs, st, script, out, h, hg, _ => by
    injection h with h1
    rw [← h1]
    exact ⟨hg, ⟨[], by simp⟩⟩
  | Nat.succ n, msgs, logs, st, script, out, h, hg, hs => by
    cases script with
    | nil =>
      injection h with h1
      rw [← h1]
      exact ⟨hg, ⟨[], by simp⟩⟩
    | cons s0 script1 =>
      cases s0 with
      | none =>
        injection h with h1
        rw [← h1]
        exact ⟨hg, ⟨[], by simp⟩⟩
      | some m =>
        have hm := hs m (List.mem_cons_self (some m) script1)
        have hs1 : ∀ m2 : Msg, some m2 ∈ script1 →
            m2.role = Role.assistant ∧ (m2.tool_calls.map ToolCall.id).Nodup :=
          fun m2 hm2 => hs m2 (List.mem_cons_of_mem _ hm2)
        unfold runLoop at h
        simp only [List.head?_cons, List.tail_cons] at h
        split at h
        · exact absurd h (by simp)
        · split at h
          · rename_i hcalls
            split at h
            · exact absurd h (by simp)
            · rename_i tlogs tmsgs st2 hexec
              obtain ⟨hblock, hroles⟩ :=
                execToolCalls_spec env m.tool_calls st tlogs tmsgs st2 hexec
              have hgood : claimShapeAux (msgs ++ [m] ++ tmsgs) = true := by
                rw [List.append_assoc]
                exact claimShapeAux_append msgs ([m] ++ tmsgs)
                  (claimShapeAux_block m tmsgs hm.1 hroles hblock hm.2)
                  (segOf_neutral_assistant_head m tmsgs hm.1) hg
              obtain ⟨ih1, t, ih2⟩ :=
                runLoop_shape env n (msgs ++ [m] ++ tmsgs) _ st2 script1 out h hgood hs1
              exact ⟨ih1, ⟨[m] ++ tmsgs ++ t, by rw [ih2]; simp⟩⟩
          · rename_i hcalls
            have hempty : m.tool_calls = [] :=
              List.length_eq_zero.mp (Nat.eq_zero_of_not_pos hcalls)
            have hgood : claimShapeAux (msgs ++ [m]) = true :=
              claimShapeAux_append msgs [m]
                (claimShapeAux_single_noCalls m hempty)
                (segOf_neutral_assistant_head m [] hm.1) hg
            split at h
            · rename_i hcontent
              injection h with h1
              rw [← h1]
              exact ⟨hgood, ⟨[m], rfl⟩⟩
            · rename_i hcontent
              obtain ⟨ih1, t, ih2⟩ :=
                runLoop_shape env n (msgs ++ [m]) _ st script1 out h hgood hs1
              exact ⟨ih1, ⟨[m] ++ t, by rw [ih2]; simp⟩⟩

theorem claimShape_of_head_aux (m0 : Msg) (r0 : List Msg) (l : List Msg)
    (hpre : ∃ c t, l = ((m0 :: r0) ++ c) ++ t)
    (hsys : (m0.role == Role.system) = true)
    (haux : claimShapeAux l = true) : claimShape l = true := by
  obtain ⟨c, t, rfl⟩ := hpre
  show claimShape (m0 :: ((r0 ++ c) ++ t)) = true
  rw [claimShape_cons, Bool.and_eq_true]
  exact ⟨hsys, haux⟩

/-- C3.  After any completed turn, the conversation still starts with
the system message it started with, and for every assistant message
whose tool-call list is non-empty each referenced id is answered by
exactly one subsequent tool message before the next assistant message
(whatever branch produced the answer: parse failure, declined write,
unknown tool or handler outcome); and after `reset()` the conversation
trivially has the claimed shape.  Hypotheses: the conversation going
in has the shape (the constructor establishes it: a single system
message), and the provider's scripted responses are assistant messages
whose tool-call ids are pairwise distinct within one message. -/
theorem c3_conversation_shape {σ : Type} (env : LoopEnv σ) (msgs₀ : List Msg) (st : σ)
    (request : String) (script : List (Option Msg)) (out : TurnOutput σ)
    (h : runTurn env msgs₀ st request script = Except.ok out)
    (h0 : claimShape msgs₀ = true)
    (hs : ∀ m : Msg, some m ∈ script →
      m.role = Role.assistant ∧ (m.tool_calls.map ToolCall.id).Nodup) :
    claimShape out.messages = true ∧ claimShape (resetConversation env) = true := by
  refine ⟨?_, rfl⟩
  cases msgs₀ with
  | nil => exact absurd h0 (by rw [show claimShape [] = false from rfl]; simp)
  | cons m0 r0 =>
    rw [claimShape_cons, Bool.and_eq_true] at h0
    obtain ⟨hsys, haux⟩ := h0
    have huser : ∀ l : List Msg, claimShapeAux l = true →
        claimShapeAux (l ++ [{ role := Role.user, content := some request }]) = true :=
      fun l hl => claimShapeAux_append l [{ role := Role.user, content := some request }]
        (claimShapeAux_of_nonassistant _ (fun x hx => by
          rw [List.mem_singleton] at hx
          rw [hx]
          rfl))
        (fun i r => segOf_neutral_nontool _ (fun x hx => by
          rw [List.mem_singleton] at hx
          rw [hx]
          exact ⟨fun hc => Role.noConfusion hc, fun hc => Role.noConfusion hc⟩) i r) hl
    have hnote : ∀ (l : List Msg) (c : String), claimShapeAux l = true →
        claimShapeAux (l ++ [{ role := Role.system, content := some c }]) = true :=
      fun l c hl => claimShapeAux_append l [{ role := Role.system, content := some c }]
        (claimShapeAux_of_nonassistant _ (fun x hx => by
          rw [List.mem_singleton] at hx
          rw [hx]
          rfl))
        (fun i r => segOf_neutral_nontool _ (fun x hx => by
          rw [List.mem_singleton] at hx
          rw [hx]
          exact ⟨fun hc => Role.noConfusion hc, fun hc => Role.noConfusion hc⟩) i r) hl
    unfold runTurn at h
    split at h
    · exact absurd h (by simp)
    · split at h
      · obtain ⟨ih1, t, ih2⟩ := runLoop_shape env env.maxSteps
          ((m0 :: r0) ++ [{ role := Role.user, content := some request }])
          _ st script out h (huser _ haux) hs
        refine claimShape_of_head_aux m0 r0 out.messages
          ⟨[{ role := Role.user, content := some request }], t, ?_⟩ hsys ih1
        rw [ih2]
      · rename_i sp hsp
        split at h
        · split at h
          · exact absurd h (by simp)
          · obtain ⟨ih1, t, ih2⟩ := runLoop_shape env env.maxSteps
              (((m0 :: r0) ++ [{ role := Role.user, content := some request }]) ++
                [{ role := Role.system,
                   content := some (buildAgentContext sp.name sp.draft) }])
              _ st script out h
              (hnote _ (buildAgentContext sp.name sp.draft) (huser _ haux)) hs
            refine claimShape_of_head_aux m0 r0 out.messages
              ⟨[{ role := Role.user, content := some request }] ++
                [{ role := Role.system,
                   content := some (buildAgentContext sp.name sp.draft) }], t, ?_⟩
              hsys ih1
            rw [ih2]
            simp [List.append_assoc]
        · obtain ⟨ih1, t, ih2⟩ := runLoop_shape env env.maxSteps
            ((m0 :: r0) ++ [{ role := Role.user, content := some request }])
            _ st script out h (huser _ haux) hs
          refine claimShape_of_head_aux m0 r0 out.messages
            ⟨[{ role := Role.user, content := some request }], t, ?_⟩ hsys ih1
          rw [ih2]

def envC3 : LoopEnv Nat :=
  { maxSteps := 2
    autoApprove := true
    writeTools := registryWriteTools
    confirm := fun _ => true
    handlers := fun _ => none
    parseOk := fun _ => true
    logFail := fun _ => none
    routed := fun _ => none
    systemPrompt := fun _ => ("You are a coding agent.") }

def msgC3a : Msg :=
  { role := Role.assistant, content := none,
    tool_calls := [{ id := "call_a", name := "fs_list", arguments := "\x7b\x7d" }] }

def msgC3b : Msg :=
  { role := Role.assistant, content := some ("done") }

/-- C3 witness: the theorem applied to a concrete two-step turn — an
unknown-tool call is answered by exactly one tool message, then a
final text arrives — whose resulting conversation is system, user,
assistant-with-call, tool answer, assistant. -/
theorem c3_conversation_shape_witness :
    runTurn envC3 (resetConversation envC3) 0 ("list files") [some msgC3a, some msgC3b] =
      Except.ok
        { messages := [{ role := Role.system, content := some ("You are a coding agent.") },
            { role := Role.user, content := some ("list files") }, msgC3a,
            { role := Role.tool,
              content := some ("\x7b\"error\":\"Unknown tool: fs_list\"\x7d"),
              tool_call_id := some ("call_a") }, msgC3b]
          logs := [LogEntry.message Role.user (some ("list files")) [],
            LogEntry.message Role.assistant none msgC3a.tool_calls,
            LogEntry.toolCallEntry ("fs_list") ("\x7b\x7d") true,
            LogEntry.toolResultEntry ("fs_list") (ToolResult.err ("Unknown tool: fs_list")),
            LogEntry.message Role.assistant (some ("done")) []]
          state := 0
          result := "done" } ∧
    claimShape [{ role := Role.system, content := some ("You are a coding agent.") },
        { role := Role.user, content := some ("list files") }, msgC3a,
        { role := Role.tool,
          content := some ("\x7b\"error\":\"Unknown tool: fs_list\"\x7d"),
          tool_call_id := some ("call_a") }, msgC3b] = true ∧
    claimShape (resetConversation envC3) = true := by
  have hc := c3_conversation_shape envC3 (resetConversation envC3) 0 ("list files")
    [some msgC3a, some msgC3b]
    { messages := [{ role := Role.system, content := some ("You are a coding agent.") },
        { role := Role.user, content := some ("list files") }, msgC3a,
        { role := Role.tool,
          content := some ("\x7b\"error\":\"Unknown tool: fs_list\"\x7d"),
          tool_call_id := some ("call_a") }, msgC3b]
      logs := [LogEntry.message Role.user (some ("list files")) [],
        LogEntry.message Role.assistant none msgC3a.tool_calls,
        LogEntry.toolCallEntry ("fs_list") ("\x7b\x7d") true,
        LogEntry.toolResultEntry ("fs_list") (ToolResult.err ("Unknown tool: fs_list")),
        LogEntry.message Role.assistant (some ("done")) []]
      state := 0
      result := "done" }
    rfl rfl
    (by
      intro m hm
      rcases List.mem_cons.mp hm with h1 | h1
      · rw [Option.some.injEq] at h1
        rw [h1]
        exact ⟨rfl, by decide⟩
      · rw [List.mem_singleton, Option.some.injEq] at h1
        rw [h1]
        exact ⟨rfl, by decide⟩)
  exact ⟨rfl, hc.1, hc.2⟩
